import Mathlib

/-!
# Verification of the `bencode` codec (Munksgaard/bencode)

A shallow embedding of `src/lib.rs`: the `Bencoded` value model, the
recursive-descent decoder (`parse_integer`, `parse_bytestring`, `parse_list`,
`parse_dict`, `parse_bencoded`, `parse`) and the encoder (the `fmt::Display`
implementation, viewed at the byte level of the produced Rust `String`).

Modelling conventions:
* A byte buffer `&[u8]` is a `List Nat` (entries are byte values), abbreviated
  `Bytes`.
* Rust panics (out-of-bounds indexing `s[idx]`, `to_digit(10).unwrap()` on a
  non-digit) are modelled by `Option`: `none` is the panic / decode-failure
  outcome; `some` is a normal return.
* `isize` is modelled by `Int` (resp. `Nat` for the nonnegative bytestring
  length accumulator).  The source does not defend against overflow and the
  spec documents that as a known looseness; the claims under verification do
  not depend on wrap-around behaviour.
* A `HashMap<Vec<u8>, Bencoded>` is an association list
  `List (Bytes × Bencoded)`; `HashMap::insert` is `insertPair` (replace the
  existing entry for the key, else append) and `HashMap::get` is `lookupKey`.
  A `HashMap` has no observable storage order, so an association list is one
  representative of the map; the encoder sorts the entries by key before
  serialising, exactly as the source does, so the encoded form does not
  depend on the representative.
* The encoder's output is the byte sequence of the Rust `String` built by
  `fmt::Display`.  `String::push(c)` appends the UTF-8 encoding of `c`, so a
  byte `c ≥ 0x80` pushed via `*c as char` contributes the two bytes of the
  UTF-8 encoding of the code point `U+00c` — this is modelled faithfully by
  `encodeChar`.
-/

/-- A byte buffer (`&[u8]` / `Vec<u8>`): a list of byte values. -/
abbrev Bytes := List Nat

/-- The `Bencoded` enum of the source (`Integer`, `Bytestring`, `List`,
`Dict`).  The dictionary is an association list standing for the `HashMap`. -/
inductive Bencoded where
  | Integer : Int → Bencoded
  | Bytestring : Bytes → Bencoded
  | List : List Bencoded → Bencoded
  | Dict : List (Bytes × Bencoded) → Bencoded
deriving Repr

/-- `(c as char).to_digit(10)` for a byte `c`: `some (c - 48)` when `c` is an
ASCII digit, otherwise `none` (the source calls `.unwrap()` on it, so `none`
becomes a panic at the call sites). -/
def toDigit (c : Nat) : Option Nat :=
  if 48 ≤ c ∧ c ≤ 57 then some (c - 48) else none

/-- `HashMap::insert` on the association-list representative: replace the
entry for the key if present, otherwise append the new pair. -/
def insertPair (m : List (Bytes × Bencoded)) (k : Bytes) (v : Bencoded) :
    List (Bytes × Bencoded) :=
  match m with
  | [] => [(k, v)]
  | p :: rest => if p.1 = k then (k, v) :: rest else p :: insertPair rest k v

/-- `HashMap::get` on the association-list representative: the value stored
for the key, if any. -/
def lookupKey (m : List (Bytes × Bencoded)) (k : Bytes) : Option Bencoded :=
  match m with
  | [] => none
  | p :: rest => if p.1 = k then some p.2 else lookupKey rest k

/-- `Bencoded::get`: `map.get(key)` when `self` is a `Dict`, else `None`. -/
def Bencoded.get (v : Bencoded) (key : Bytes) : Option Bencoded :=
  match v with
  | .Dict map => lookupKey map key
  | _ => none

/-- The digit-accumulation loop of `parse_integer`: starting from accumulator
`n`, read digits (`n = n * 10 + d`) until the byte `e` (101), returning the
accumulated value and the index one past the `e`.  Out-of-bounds indexing and
non-digit bytes are panics (`none`). -/
def parse_integer_loop (s : Bytes) (idx : Nat) (n : Int) : Option (Int × Nat) :=
  match h : s[idx]? with
  | none => none
  | some c =>
    if c = 101 then some (n, idx + 1)
    else
      match toDigit c with
      | none => none
      | some d => parse_integer_loop s (idx + 1) (n * 10 + d)
termination_by s.length - idx
decreasing_by
  have : idx < s.length := (List.getElem?_eq_some.mp h).1
  omega

/-- `parse_integer`: optional leading `-` (45), then the digit loop, with the
sign applied to the result at the end (`Integer(n * arity)`). -/
def parse_integer (s : Bytes) (idx : Nat) : Option (Bencoded × Nat) :=
  match s[idx]? with
  | none => none
  | some c =>
    if c = 45 then
      match parse_integer_loop s (idx + 1) 0 with
      | none => none
      | some (n, j) => some (.Integer (n * -1), j)
    else
      match parse_integer_loop s idx 0 with
      | none => none
      | some (n, j) => some (.Integer (n * 1), j)

/-- The length-accumulation loop of `parse_bytestring`: read digits until the
byte `:` (58), returning the length and the index one past the colon. -/
def parse_len_loop (s : Bytes) (idx : Nat) (len : Nat) : Option (Nat × Nat) :=
  match h : s[idx]? with
  | none => none
  | some c =>
    if c = 58 then some (len, idx + 1)
    else
      match toDigit c with
      | none => none
      | some d => parse_len_loop s (idx + 1) (len * 10 + d)
termination_by s.length - idx
decreasing_by
  have : idx < s.length := (List.getElem?_eq_some.mp h).1
  omega

/-- `parse_bytestring`: the length loop, then `len` bytes copied verbatim by
the indexing loop `for i in 0..len { v.push(s[idx+i]) }`.  The copy loop
panics at its first out-of-bounds index, i.e. exactly when `len > 0` and
`j + len > s.length`; when it completes, it has read
`s[j], …, s[j+len-1] = (s.drop j).take len` and the cursor is `j + len`. -/
def parse_bytestring (s : Bytes) (idx : Nat) : Option (Bencoded × Nat) :=
  match parse_len_loop s idx 0 with
  | none => none
  | some (len, j) =>
    if len = 0 ∨ j + len ≤ s.length then
      some (.Bytestring ((s.drop j).take len), j + len)
    else none

mutual

/-- The loop of `parse_list` with the accumulated vector `v`: stop on `e`
(101), otherwise parse one element and push it.  The guard `idx < idx2` makes
the (unreachable: `parse_bencoded` always advances the cursor on success)
non-advancing case explicit so the recursion is well-founded. -/
def parse_list (s : Bytes) (idx : Nat) (v : List Bencoded) :
    Option (List Bencoded × Nat) :=
  match h : s[idx]? with
  | none => none
  | some c =>
    if c = 101 then some (v, idx + 1)
    else
      match parse_bencoded s idx with
      | none => none
      | some (elem, idx2) =>
        if h2 : idx < idx2 then parse_list s idx2 (v ++ [elem]) else none
termination_by 2 * (s.length - idx) + 1
decreasing_by
  · have : idx < s.length := (List.getElem?_eq_some.mp h).1
    omega
  · have : idx < s.length := (List.getElem?_eq_some.mp h).1
    omega

/-- The loop of `parse_dict` with the accumulated map: stop on `e` (101),
otherwise parse a bytestring key, then a value, and `insert` the pair.  The
source's `if let Bytestring(key) … else panic!` is the `| _ => none` arm
(unreachable: `parse_bytestring` only builds `Bytestring`).  The cursor
guards are unreachable as in `parse_list`. -/
def parse_dict (s : Bytes) (idx : Nat) (map : List (Bytes × Bencoded)) :
    Option (List (Bytes × Bencoded) × Nat) :=
  match h : s[idx]? with
  | none => none
  | some c =>
    if c = 101 then some (map, idx + 1)
    else
      match parse_bytestring s idx with
      | some (.Bytestring key, i2) =>
        if h2 : idx < i2 then
          match parse_bencoded s i2 with
          | none => none
          | some (val, i3) =>
            if h3 : idx < i3 then parse_dict s i3 (insertPair map key val)
            else none
        else none
      | _ => none
termination_by 2 * (s.length - idx) + 1
decreasing_by
  · have : idx < s.length := (List.getElem?_eq_some.mp h).1
    omega
  · have : idx < s.length := (List.getElem?_eq_some.mp h).1
    omega

/-- `parse_bencoded`: dispatch on the lookahead byte — `i` (105) integer,
`l` (108) list, `d` (100) dict, anything else goes to `parse_bytestring`. -/
def parse_bencoded (s : Bytes) (idx : Nat) : Option (Bencoded × Nat) :=
  match h : s[idx]? with
  | none => none
  | some c =>
    if c = 105 then parse_integer s (idx + 1)
    else if c = 108 then
      match parse_list s (idx + 1) [] with
      | none => none
      | some (v, j) => some (.List v, j)
    else if c = 100 then
      match parse_dict s (idx + 1) [] with
      | none => none
      | some (m, j) => some (.Dict m, j)
    else parse_bytestring s idx
termination_by 2 * (s.length - idx)
decreasing_by
  · have : idx < s.length := (List.getElem?_eq_some.mp h).1
    omega
  · have : idx < s.length := (List.getElem?_eq_some.mp h).1
    omega

end

/-- `parse`: parse one value starting at offset 0 and return it (dropping the
final cursor, `parse_bencoded(s, 0).0`). -/
def parse (s : Bytes) : Option Bencoded :=
  match parse_bencoded s 0 with
  | none => none
  | some (v, _) => some v

/-! ## The encoder (`impl fmt::Display for Bencoded`)

The source renders into a Rust `String`; its observable output as a byte
sequence is the UTF-8 encoding of that string, which is what these
definitions produce. -/

/-- `String::push(*c as char)` at the byte level, for a byte value `c`:
ASCII bytes are themselves, bytes `0x80..0xFF` become the two-byte UTF-8
sequence of the code point `U+0080..U+00FF`. -/
def encodeChar (c : Nat) : Bytes :=
  if c < 128 then [c] else [192 + c / 64, 128 + c % 64]

/-- The bytes contributed by the `for c in v { s.push(*c as char) }` loop of
the `Bytestring` arm. -/
def encBytes : Bytes → Bytes
  | [] => []
  | c :: cs => encodeChar c ++ encBytes cs

/-- Helper for `natToDigits`: the recursion on `n / 10` bounded by a fuel
that only needs to be at least `n` (each division step at least halves a
number that is ≥ 10), so that the definition is structural and computes by
kernel reduction. -/
def natToDigitsAux (fuel n : Nat) : Bytes :=
  match fuel with
  | 0 => [48 + n]
  | f + 1 => if n < 10 then [48 + n] else natToDigitsAux f (n / 10) ++ [48 + n % 10]

/-- The decimal ASCII digits of a nonnegative number (Rust's integer
`Display`): no leading zeros, `0` rendered as `"0"`.  See `natToDigits_eq`
for the defining recurrence. -/
def natToDigits (n : Nat) : Bytes := natToDigitsAux n n

/-- The digits of `write!(f, "i{}e", n)` for the `isize` value `n`: a `-`
then the magnitude for negative values, plain decimal otherwise. -/
def intToBytes (n : Int) : Bytes :=
  if n < 0 then 45 :: natToDigits n.natAbs else natToDigits n.toNat

/-- The `Display` output of `Bytestring(k)` at the byte level: the decimal
rendering of `k.len()` (the raw byte count), a `:` (58), then each byte
pushed as a `char`. -/
def encodeBytestring (k : Bytes) : Bytes :=
  natToDigits k.length ++ 58 :: encBytes k

/-- `Vec<u8>` ordering (`a.cmp(b) == Ordering::Less`): strict lexicographic
order on byte values, a proper prefix being smaller. -/
def bytesLt : Bytes → Bytes → Bool
  | [], [] => false
  | [], _ :: _ => true
  | _ :: _, [] => false
  | a :: xs, b :: ys => if a < b then true else if b < a then false else bytesLt xs ys

/-- One insertion step of the key sort of the `Dict` arm, on
(raw key, rendered value) pairs: skip while the existing key is strictly
smaller, then insert. -/
def insertSorted (p : Bytes × Bytes) : List (Bytes × Bytes) → List (Bytes × Bytes)
  | [] => [p]
  | q :: qs => if bytesLt q.1 p.1 then q :: insertSorted p qs else p :: q :: qs

/-- `v.sort_by(|&(a, _), &(b, _)| a.cmp(b))` as an insertion sort.
`slice::sort_by` is only specified up to stability, and the keys coming from
a `HashMap` are unique, so every correct sort produces the same list;
insertion sort is an equivalent model. -/
def sortPairs : List (Bytes × Bytes) → List (Bytes × Bytes)
  | [] => []
  | p :: ps => insertSorted p (sortPairs ps)

/-- The concatenation loop of the `Dict` arm: for each sorted pair,
`format!("{}{}", Bytestring(key.clone()), val)` — the key rendered as a
bytestring followed by the already-rendered value. -/
def joinPairs : List (Bytes × Bytes) → Bytes
  | [] => []
  | p :: ps => encodeBytestring p.1 ++ p.2 ++ joinPairs ps

mutual

/-- The `Display` implementation at the byte level.  The `Dict` arm here
renders each value first (`encodePairs`), sorts the pairs by raw key
(`sortPairs`) and concatenates (`joinPairs`); the source collects the pairs,
sorts them, and then renders each — the two commute because the comparator
reads only the keys and each pair is rendered independently of its
position. -/
def encode : Bencoded → Bytes
  | .Integer n => 105 :: (intToBytes n ++ [101])
  | .Bytestring v => encodeBytestring v
  | .List vs => 108 :: (encodeList vs ++ [101])
  | .Dict m => 100 :: (joinPairs (sortPairs (encodePairs m)) ++ [101])

/-- The `List` arm's loop: concatenate the renderings of the elements in
stored order. -/
def encodeList : List Bencoded → Bytes
  | [] => []
  | v :: vs => encode v ++ encodeList vs

/-- The `Dict` arm's pairs with the values rendered and the raw keys kept. -/
def encodePairs : List (Bytes × Bencoded) → List (Bytes × Bytes)
  | [] => []
  | p :: ps => (p.1, encode p.2) :: encodePairs ps

end

/-! ## The specified encoder

The spec (§4.3, §6) describes the canonical wire format: bytestring contents
are the raw bytes verbatim, and dictionary pairs appear in ascending key
order.  `specEncode` is that description as a definition, used as the
comparison point for the refinement claims; a "canonically-encoded byte
sequence" is `specEncode v` for a value with `specCanonical v` (all
dictionaries stored strictly sorted — the canonical representative of a
unique-keyed map, whose encode-time sort is the identity). -/

mutual

/-- The encoder the spec describes (§4.3): like `encode` but with bytestring
contents emitted verbatim, and dictionary entries taken in stored order
(which `specCanonical` requires to be strictly ascending). -/
def specEncode : Bencoded → Bytes
  | .Integer n => 105 :: (intToBytes n ++ [101])
  | .Bytestring v => natToDigits v.length ++ 58 :: v
  | .List vs => 108 :: (specEncodeList vs ++ [101])
  | .Dict m => 100 :: (specEncodePairs m ++ [101])

/-- Concatenation of the spec encodings of list elements. -/
def specEncodeList : List Bencoded → Bytes
  | [] => []
  | v :: vs => specEncode v ++ specEncodeList vs

/-- Concatenation of `(encoded key)(encoded value)` for dictionary pairs in
stored order, keys encoded verbatim as bytestrings. -/
def specEncodePairs : List (Bytes × Bencoded) → Bytes
  | [] => []
  | p :: ps => (natToDigits p.1.length ++ 58 :: p.1) ++ specEncode p.2 ++ specEncodePairs ps

end

/-- Adjacent keys strictly ascending in byte-lexicographic order (hence all
keys distinct). -/
def keysSorted : List (Bytes × Bencoded) → Bool
  | [] => true
  | [_] => true
  | p :: q :: ps => bytesLt p.1 q.1 && keysSorted (q :: ps)

mutual

/-- Canonically-built values per the spec: every dictionary, at every depth,
stores its entries in strictly ascending key order (in particular all keys
are unique).  Integers need no side condition: an `Int` determines its
canonical decimal form. -/
def specCanonical : Bencoded → Bool
  | .Integer _ => true
  | .Bytestring _ => true
  | .List vs => specCanonicalList vs
  | .Dict m => keysSorted m && specCanonicalPairs m

/-- All elements canonically built. -/
def specCanonicalList : List Bencoded → Bool
  | [] => true
  | v :: vs => specCanonical v && specCanonicalList vs

/-- All stored values canonically built. -/
def specCanonicalPairs : List (Bytes × Bencoded) → Bool
  | [] => true
  | p :: ps => specCanonical p.2 && specCanonicalPairs ps

end

mutual

/-- Every bytestring content byte and every dictionary key byte, at every
depth, is ASCII (`< 0x80`) — the range on which pushing a byte as a `char`
contributes exactly that byte. -/
def asciiOnly : Bencoded → Bool
  | .Integer _ => true
  | .Bytestring v => v.all (fun c => c < 128)
  | .List vs => asciiOnlyList vs
  | .Dict m => asciiOnlyPairs m

/-- All elements ASCII-only. -/
def asciiOnlyList : List Bencoded → Bool
  | [] => true
  | v :: vs => asciiOnly v && asciiOnlyList vs

/-- All keys and stored values ASCII-only. -/
def asciiOnlyPairs : List (Bytes × Bencoded) → Bool
  | [] => true
  | p :: ps => p.1.all (fun c => c < 128) && asciiOnly p.2 && asciiOnlyPairs ps

end

mutual

/-- Structural size of a value, the induction measure for the round-trip
proofs. -/
def size : Bencoded → Nat
  | .Integer _ => 1
  | .Bytestring _ => 1
  | .List vs => 1 + sizeList vs
  | .Dict m => 1 + sizePairs m

/-- Summed size of list elements. -/
def sizeList : List Bencoded → Nat
  | [] => 0
  | v :: vs => 1 + size v + sizeList vs

/-- Summed size of dictionary values. -/
def sizePairs : List (Bytes × Bencoded) → Nat
  | [] => 0
  | p :: ps => 1 + size p.2 + sizePairs ps

end

/-- The value accumulated by the digit loop of `parse_integer` over a digit
byte list, starting from accumulator `a`. -/
def digitsVal (a : Int) (ds : Bytes) : Int :=
  ds.foldl (fun acc c => acc * 10 + ((c - 48 : Nat) : Int)) a

/-- The value accumulated by the digit loop of `parse_bytestring` over a
digit byte list, starting from accumulator `a`. -/
def lenVal (a : Nat) (ds : Bytes) : Nat :=
  ds.foldl (fun acc c => acc * 10 + (c - 48)) a

/-- Adjacent strict key sortedness of the encoder's (key, rendered value)
pairs, mirroring `keysSorted`. -/
def pairsSorted : List (Bytes × Bytes) → Bool
  | [] => true
  | [_] => true
  | p :: q :: ps => bytesLt p.1 q.1 && pairsSorted (q :: ps)

/-- Adjacent nonstrict key sortedness (no adjacent strict descent): what any
correct sort guarantees. -/
def pairsSortedLe : List (Bytes × Bytes) → Bool
  | [] => true
  | [_] => true
  | p :: q :: ps => !(bytesLt q.1 p.1) && pairsSortedLe (q :: ps)

/-! ## Step equations

The recursive parser functions are defined by well-founded recursion, so they
do not reduce definitionally; the following equations, one per control path
of each function, are the form in which the definitions are used in proofs
and in concrete evaluations. -/

theorem parse_integer_loop_oob {s : Bytes} {idx : Nat} (h : s[idx]? = none) (n : Int) :
    parse_integer_loop s idx n = none := by
  conv_lhs => unfold parse_integer_loop
  split
  · rfl
  · rename_i c hc; rw [h] at hc; cases hc

theorem parse_integer_loop_e {s : Bytes} {idx : Nat} (h : s[idx]? = some 101) (n : Int) :
    parse_integer_loop s idx n = some (n, idx + 1) := by
  conv_lhs => unfold parse_integer_loop
  split
  · rename_i hc; rw [h] at hc; cases hc
  · rename_i c hc; rw [h] at hc; cases hc; try simp

theorem parse_integer_loop_digit {s : Bytes} {idx : Nat} {c : Nat} (h : s[idx]? = some c)
    (hd : 48 ≤ c ∧ c ≤ 57) (n : Int) :
    parse_integer_loop s idx n = parse_integer_loop s (idx + 1) (n * 10 + (c - 48 : Nat)) := by
  conv_lhs => unfold parse_integer_loop
  split
  · rename_i hc; rw [h] at hc; cases hc
  · rename_i c2 hc; rw [h] at hc; cases hc
    have h1 : ¬ (c = 101) := by omega
    have h2 : toDigit c = some (c - 48) := by rw [toDigit, if_pos hd]
    rw [if_neg h1, h2]

theorem parse_integer_loop_bad {s : Bytes} {idx : Nat} {c : Nat} (h : s[idx]? = some c)
    (hd : ¬ (48 ≤ c ∧ c ≤ 57)) (hc : c ≠ 101) (n : Int) :
    parse_integer_loop s idx n = none := by
  conv_lhs => unfold parse_integer_loop
  split
  · rfl
  · rename_i c2 hc2; rw [h] at hc2; cases hc2
    have h2 : toDigit c = none := by rw [toDigit, if_neg hd]
    rw [if_neg hc, h2]

theorem parse_len_loop_oob {s : Bytes} {idx : Nat} (h : s[idx]? = none) (len : Nat) :
    parse_len_loop s idx len = none := by
  conv_lhs => unfold parse_len_loop
  split
  · rfl
  · rename_i c hc; rw [h] at hc; cases hc

theorem parse_len_loop_colon {s : Bytes} {idx : Nat} (h : s[idx]? = some 58) (len : Nat) :
    parse_len_loop s idx len = some (len, idx + 1) := by
  conv_lhs => unfold parse_len_loop
  split
  · rename_i hc; rw [h] at hc; cases hc
  · rename_i c hc; rw [h] at hc; cases hc; try simp

theorem parse_len_loop_digit {s : Bytes} {idx : Nat} {c : Nat} (h : s[idx]? = some c)
    (hd : 48 ≤ c ∧ c ≤ 57) (len : Nat) :
    parse_len_loop s idx len = parse_len_loop s (idx + 1) (len * 10 + (c - 48)) := by
  conv_lhs => unfold parse_len_loop
  split
  · rename_i hc; rw [h] at hc; cases hc
  · rename_i c2 hc; rw [h] at hc; cases hc
    have h1 : ¬ (c = 58) := by omega
    have h2 : toDigit c = some (c - 48) := by rw [toDigit, if_pos hd]
    rw [if_neg h1, h2]

theorem parse_len_loop_bad {s : Bytes} {idx : Nat} {c : Nat} (h : s[idx]? = some c)
    (hd : ¬ (48 ≤ c ∧ c ≤ 57)) (hc : c ≠ 58) (len : Nat) :
    parse_len_loop s idx len = none := by
  conv_lhs => unfold parse_len_loop
  split
  · rfl
  · rename_i c2 hc2; rw [h] at hc2; cases hc2
    have h2 : toDigit c = none := by rw [toDigit, if_neg hd]
    rw [if_neg hc, h2]

theorem parse_bencoded_oob {s : Bytes} {idx : Nat} (h : s[idx]? = none) :
    parse_bencoded s idx = none := by
  conv_lhs => unfold parse_bencoded
  split
  · rfl
  · rename_i c hc; rw [h] at hc; cases hc

theorem parse_bencoded_i {s : Bytes} {idx : Nat} (h : s[idx]? = some 105) :
    parse_bencoded s idx = parse_integer s (idx + 1) := by
  conv_lhs => unfold parse_bencoded
  split
  · rename_i hc; rw [h] at hc; cases hc
  · rename_i c hc; rw [h] at hc; cases hc; try simp

theorem parse_bencoded_l {s : Bytes} {idx : Nat} (h : s[idx]? = some 108) :
    parse_bencoded s idx =
      match parse_list s (idx + 1) [] with
      | none => none
      | some (v, j) => some (.List v, j) := by
  conv_lhs => unfold parse_bencoded
  split
  · rename_i hc; rw [h] at hc; cases hc
  · rename_i c hc; rw [h] at hc; cases hc; try simp

theorem parse_bencoded_d {s : Bytes} {idx : Nat} (h : s[idx]? = some 100) :
    parse_bencoded s idx =
      match parse_dict s (idx + 1) [] with
      | none => none
      | some (m, j) => some (.Dict m, j) := by
  conv_lhs => unfold parse_bencoded
  split
  · rename_i hc; rw [h] at hc; cases hc
  · rename_i c hc; rw [h] at hc; cases hc; try simp

theorem parse_bencoded_other {s : Bytes} {idx : Nat} {c : Nat} (h : s[idx]? = some c)
    (h1 : c ≠ 105) (h2 : c ≠ 108) (h3 : c ≠ 100) :
    parse_bencoded s idx = parse_bytestring s idx := by
  conv_lhs => unfold parse_bencoded
  split
  · rename_i hc; rw [h] at hc; cases hc
  · rename_i c2 hc; rw [h] at hc; cases hc
    rw [if_neg h1, if_neg h2, if_neg h3]

theorem parse_list_oob {s : Bytes} {idx : Nat} (h : s[idx]? = none) (v : List Bencoded) :
    parse_list s idx v = none := by
  conv_lhs => unfold parse_list
  split
  · rfl
  · rename_i c hc; rw [h] at hc; cases hc

theorem parse_list_e {s : Bytes} {idx : Nat} (h : s[idx]? = some 101) (v : List Bencoded) :
    parse_list s idx v = some (v, idx + 1) := by
  conv_lhs => unfold parse_list
  split
  · rename_i hc; rw [h] at hc; cases hc
  · rename_i c hc; rw [h] at hc; cases hc; try simp

theorem parse_list_step {s : Bytes} {idx : Nat} {c : Nat} {elem : Bencoded} {idx2 : Nat}
    (h : s[idx]? = some c) (hc : c ≠ 101)
    (hp : parse_bencoded s idx = some (elem, idx2)) (hadv : idx < idx2)
    (v : List Bencoded) :
    parse_list s idx v = parse_list s idx2 (v ++ [elem]) := by
  conv_lhs => unfold parse_list
  split
  · rename_i hc2; rw [h] at hc2; cases hc2
  · rename_i c2 hc2; rw [h] at hc2; cases hc2
    rw [if_neg hc, hp]
    simp [dif_pos hadv]

theorem parse_list_step_fail {s : Bytes} {idx : Nat} {c : Nat}
    (h : s[idx]? = some c) (hc : c ≠ 101)
    (hp : parse_bencoded s idx = none) (v : List Bencoded) :
    parse_list s idx v = none := by
  conv_lhs => unfold parse_list
  split
  · rfl
  · rename_i c2 hc2; rw [h] at hc2; cases hc2
    rw [if_neg hc, hp]

theorem parse_dict_oob {s : Bytes} {idx : Nat} (h : s[idx]? = none)
    (map : List (Bytes × Bencoded)) : parse_dict s idx map = none := by
  conv_lhs => unfold parse_dict
  split
  · rfl
  · rename_i c hc; rw [h] at hc; cases hc

theorem parse_dict_e {s : Bytes} {idx : Nat} (h : s[idx]? = some 101)
    (map : List (Bytes × Bencoded)) : parse_dict s idx map = some (map, idx + 1) := by
  conv_lhs => unfold parse_dict
  split
  · rename_i hc; rw [h] at hc; cases hc
  · rename_i c hc; rw [h] at hc; cases hc; try simp

theorem parse_dict_step {s : Bytes} {idx : Nat} {c : Nat} {key : Bytes} {i2 : Nat}
    {val : Bencoded} {i3 : Nat}
    (h : s[idx]? = some c) (hc : c ≠ 101)
    (hk : parse_bytestring s idx = some (.Bytestring key, i2)) (ha1 : idx < i2)
    (hv : parse_bencoded s i2 = some (val, i3)) (ha2 : idx < i3)
    (map : List (Bytes × Bencoded)) :
    parse_dict s idx map = parse_dict s i3 (insertPair map key val) := by
  conv_lhs => unfold parse_dict
  split
  · rename_i hc2; rw [h] at hc2; cases hc2
  · rename_i c2 hc2; rw [h] at hc2; cases hc2
    rw [if_neg hc, hk]
    simp [dif_pos ha1, hv, dif_pos ha2]

/-- Fuel irrelevance for `natToDigitsAux`: any fuel at least `n` gives the
same digits. -/
theorem natToDigitsAux_irrel : ∀ f g n : Nat, n ≤ f → n ≤ g →
    natToDigitsAux f n = natToDigitsAux g n := by
  intro f
  induction f with
  | zero =>
    intro g n hf _
    interval_cases n
    cases g with
    | zero => rfl
    | succ g2 => simp [natToDigitsAux]
  | succ f2 ih =>
    intro g n hf hg
    cases g with
    | zero =>
      interval_cases n
      simp [natToDigitsAux]
    | succ g2 =>
      simp only [natToDigitsAux]
      by_cases h10 : n < 10
      · simp [h10]
      · have hd : n / 10 < n := Nat.div_lt_self (by omega) (by omega)
        rw [if_neg h10, if_neg h10, ih g2 (n / 10) (by omega) (by omega)]

/-- The defining recurrence of `natToDigits`. -/
theorem natToDigits_eq (n : Nat) :
    natToDigits n = if n < 10 then [48 + n] else natToDigits (n / 10) ++ [48 + n % 10] := by
  unfold natToDigits
  by_cases h10 : n < 10
  · cases n with
    | zero => simp [natToDigitsAux, h10]
    | succ n2 => simp [natToDigitsAux, h10]
  · have h1 : 1 ≤ n := by omega
    obtain ⟨f, hf⟩ : ∃ f, n = f + 1 := ⟨n - 1, by omega⟩
    subst hf
    simp only [natToDigitsAux, if_neg h10]
    rw [natToDigitsAux_irrel f ((f + 1) / 10) ((f + 1) / 10) (by omega) (le_refl _)]

/-! ## Buffer index arithmetic -/

/-- Reading at an offset past a prefix reads into the suffix. -/
theorem getByte_at (pre l : Bytes) (k : Nat) : (pre ++ l)[pre.length + k]? = l[k]? := by
  rw [List.getElem?_append_right (by omega)]
  congr 1
  omega

/-- Reading exactly at the end of a prefix reads the suffix's head. -/
theorem getByte_head (pre : Bytes) (c : Nat) (t : Bytes) :
    (pre ++ c :: t)[pre.length]? = some c := by
  have h := getByte_at pre (c :: t) 0
  simpa using h

/-! ## Decimal digits -/

/-- Every byte of `natToDigits n` is an ASCII digit. -/
theorem natToDigits_mem (n : Nat) : ∀ c ∈ natToDigits n, 48 ≤ c ∧ c ≤ 57 := by
  induction n using Nat.strong_induction_on with
  | _ n ih =>
    rw [natToDigits_eq]
    by_cases h10 : n < 10
    · simp [h10]
      omega
    · rw [if_neg h10]
      intro c hc
      rcases List.mem_append.mp hc with h | h
      · exact ih (n / 10) (Nat.div_lt_self (by omega) (by omega)) c h
      · have : c = 48 + n % 10 := by simpa using h
        have := Nat.mod_lt n (show 0 < 10 by omega)
        omega

/-- `natToDigits n` is never empty. -/
theorem natToDigits_ne_nil (n : Nat) : natToDigits n ≠ [] := by
  rw [natToDigits_eq]
  by_cases h10 : n < 10
  · simp [h10]
  · rw [if_neg h10]
    simp

/-- `natToDigits n` starts with an ASCII digit: the shape used to drive the
parser's dispatch. -/
theorem natToDigits_head (n : Nat) :
    ∃ c t, natToDigits n = c :: t ∧ 48 ≤ c ∧ c ≤ 57 := by
  cases h : natToDigits n with
  | nil => exact absurd h (natToDigits_ne_nil n)
  | cons c t =>
    refine ⟨c, t, rfl, ?_⟩
    have := natToDigits_mem n c (by rw [h]; exact List.mem_cons_self c t)
    exact this

/-- `digitsVal` over an appended digit. -/
theorem digitsVal_append_one (a : Int) (xs : Bytes) (d : Nat) :
    digitsVal a (xs ++ [d]) = (digitsVal a xs) * 10 + ((d - 48 : Nat) : Int) := by
  simp [digitsVal, List.foldl_append]

/-- The digit loop value of the decimal rendering of `n`, from accumulator
`a`: the digits reconstruct `n` below `a` shifted by the digit count. -/
theorem digitsVal_natToDigits (n : Nat) : ∀ a : Int,
    digitsVal a (natToDigits n) = a * (10 : Int) ^ (natToDigits n).length + n := by
  induction n using Nat.strong_induction_on with
  | _ n ih =>
    intro a
    rw [natToDigits_eq]
    by_cases h10 : n < 10
    · simp [h10, digitsVal]
    · rw [if_neg h10]
      rw [digitsVal_append_one, ih (n / 10) (Nat.div_lt_self (by omega) (by omega)) a]
      rw [List.length_append, List.length_singleton, pow_succ]
      have hsplit : (n : Int) = 10 * ((n : Nat) / 10 : Nat) + ((n : Nat) % 10 : Nat) := by
        push_cast
        omega
      push_cast
      ring_nf
      omega

/-- `lenVal` over an appended digit. -/
theorem lenVal_append_one (a : Nat) (xs : Bytes) (d : Nat) :
    lenVal a (xs ++ [d]) = (lenVal a xs) * 10 + (d - 48) := by
  simp [lenVal, List.foldl_append]

/-- The digit loop value of the decimal rendering of `n` (the `Nat` variant
used by the bytestring length loop). -/
theorem lenVal_natToDigits (n : Nat) : ∀ a : Nat,
    lenVal a (natToDigits n) = a * 10 ^ (natToDigits n).length + n := by
  induction n using Nat.strong_induction_on with
  | _ n ih =>
    intro a
    rw [natToDigits_eq]
    by_cases h10 : n < 10
    · simp [h10, lenVal]
    · rw [if_neg h10]
      rw [lenVal_append_one, ih (n / 10) (Nat.div_lt_self (by omega) (by omega)) a]
      rw [List.length_append, List.length_singleton, pow_succ]
      have := Nat.div_add_mod n 10
      ring_nf
      omega

/-! ## The leaf parsers on encoded input -/

/-- The integer digit loop consumes a digit sequence up to a terminating `e`
and accumulates its value, wherever the sequence sits in the buffer. -/
theorem parse_integer_loop_digitSeq :
    ∀ ds : Bytes, (∀ c ∈ ds, 48 ≤ c ∧ c ≤ 57) → ∀ (a : Int) (pre rest : Bytes),
      parse_integer_loop (pre ++ (ds ++ 101 :: rest)) pre.length a
        = some (digitsVal a ds, pre.length + ds.length + 1) := by
  intro ds
  induction ds with
  | nil =>
    intro _ a pre rest
    rw [List.nil_append, parse_integer_loop_e (getByte_head pre 101 rest) a]
    simp [digitsVal]
  | cons d ds ih =>
    intro hd a pre rest
    have hdd : 48 ≤ d ∧ d ≤ 57 := hd d (List.mem_cons_self d ds)
    simp only [List.cons_append]
    have hhead : (pre ++ d :: (ds ++ 101 :: rest))[pre.length]? = some d :=
      getByte_head pre d (ds ++ 101 :: rest)
    rw [parse_integer_loop_digit hhead hdd a]
    have hre : pre ++ d :: (ds ++ 101 :: rest) = (pre ++ [d]) ++ (ds ++ 101 :: rest) := by
      simp
    rw [hre, show pre.length + 1 = (pre ++ [d]).length by simp,
      ih (fun c hc => hd c (List.mem_cons_of_mem d hc)) _ (pre ++ [d]) rest]
    simp only [digitsVal, List.foldl_cons, List.length_append, List.length_cons,
      List.length_nil, Option.some.injEq, Prod.mk.injEq]
    exact ⟨trivial, by omega⟩

/-- The length digit loop consumes a digit sequence up to a terminating `:`
and accumulates its value. -/
theorem parse_len_loop_digitSeq :
    ∀ ds : Bytes, (∀ c ∈ ds, 48 ≤ c ∧ c ≤ 57) → ∀ (a : Nat) (pre rest : Bytes),
      parse_len_loop (pre ++ (ds ++ 58 :: rest)) pre.length a
        = some (lenVal a ds, pre.length + ds.length + 1) := by
  intro ds
  induction ds with
  | nil =>
    intro _ a pre rest
    rw [List.nil_append, parse_len_loop_colon (getByte_head pre 58 rest) a]
    simp [lenVal]
  | cons d ds ih =>
    intro hd a pre rest
    have hdd : 48 ≤ d ∧ d ≤ 57 := hd d (List.mem_cons_self d ds)
    simp only [List.cons_append]
    have hhead : (pre ++ d :: (ds ++ 58 :: rest))[pre.length]? = some d :=
      getByte_head pre d (ds ++ 58 :: rest)
    rw [parse_len_loop_digit hhead hdd a]
    have hre : pre ++ d :: (ds ++ 58 :: rest) = (pre ++ [d]) ++ (ds ++ 58 :: rest) := by
      simp
    rw [hre, show pre.length + 1 = (pre ++ [d]).length by simp,
      ih (fun c hc => hd c (List.mem_cons_of_mem d hc)) _ (pre ++ [d]) rest]
    simp only [lenVal, List.foldl_cons, List.length_append, List.length_cons,
      List.length_nil, Option.some.injEq, Prod.mk.injEq]
    exact ⟨trivial, by omega⟩

/-- Dispatch equation of `parse_integer`: out-of-bounds start. -/
theorem parse_integer_oob {s : Bytes} {idx : Nat} (h : s[idx]? = none) :
    parse_integer s idx = none := by
  unfold parse_integer
  split
  · rfl
  · rename_i c hc; rw [h] at hc; cases hc

/-- Dispatch equation of `parse_integer`: a leading `-` (45) consumes the
sign and runs the loop from the next byte with arity `-1`. -/
theorem parse_integer_neg {s : Bytes} {idx : Nat} (h : s[idx]? = some 45) :
    parse_integer s idx =
      match parse_integer_loop s (idx + 1) 0 with
      | none => none
      | some (n, j) => some (.Integer (n * -1), j) := by
  unfold parse_integer
  split
  · rename_i hc; rw [h] at hc; cases hc
  · rename_i c hc; rw [h] at hc; cases hc; try simp

/-- Dispatch equation of `parse_integer`: no sign, the loop runs from the
current byte with arity `1`. -/
theorem parse_integer_nosign {s : Bytes} {idx : Nat} {c : Nat} (h : s[idx]? = some c)
    (hc : c ≠ 45) :
    parse_integer s idx =
      match parse_integer_loop s idx 0 with
      | none => none
      | some (n, j) => some (.Integer (n * 1), j) := by
  unfold parse_integer
  split
  · rename_i hc2; rw [h] at hc2; cases hc2
  · rename_i c2 hc2; rw [h] at hc2; cases hc2
    rw [if_neg hc]

/-- `parse_integer` on the rendered digits of `n` followed by `e`: yields
`Integer n` with the cursor one past the `e`. -/
theorem parse_integer_spec (n : Int) (pre rest : Bytes) :
    parse_integer (pre ++ (intToBytes n ++ 101 :: rest)) pre.length
      = some (.Integer n, pre.length + (intToBytes n).length + 1) := by
  by_cases hneg : n < 0
  · rw [intToBytes, if_pos hneg]
    simp only [List.cons_append]
    have hhead : (pre ++ 45 :: (natToDigits n.natAbs ++ 101 :: rest))[pre.length]? = some 45 :=
      getByte_head pre 45 (natToDigits n.natAbs ++ 101 :: rest)
    rw [parse_integer_neg hhead]
    have hre : pre ++ 45 :: (natToDigits n.natAbs ++ 101 :: rest)
        = (pre ++ [45]) ++ (natToDigits n.natAbs ++ 101 :: rest) := by simp
    rw [hre, show pre.length + 1 = (pre ++ [45]).length by simp,
      parse_integer_loop_digitSeq (natToDigits n.natAbs) (natToDigits_mem _) 0 (pre ++ [45]) rest,
      digitsVal_natToDigits]
    have habs : ((n.natAbs : Int)) = -n := by omega
    simp only [habs, List.length_append, List.length_cons, List.length_nil,
      Option.some.injEq, Prod.mk.injEq, Bencoded.Integer.injEq]
    constructor
    · ring
    · omega
  · rw [intToBytes, if_neg hneg]
    obtain ⟨c, t, hct, hc1, hc2⟩ := natToDigits_head n.toNat
    rw [hct]
    simp only [List.cons_append]
    have hhead : (pre ++ c :: (t ++ 101 :: rest))[pre.length]? = some c :=
      getByte_head pre c (t ++ 101 :: rest)
    rw [parse_integer_nosign hhead (show ¬ (c = 45) by omega)]
    rw [show pre ++ c :: (t ++ 101 :: rest) = pre ++ ((c :: t) ++ 101 :: rest) by simp]
    rw [← hct,
      parse_integer_loop_digitSeq (natToDigits n.toNat) (natToDigits_mem _) 0 pre rest,
      digitsVal_natToDigits]
    have htn : ((n.toNat : Int)) = n := Int.toNat_of_nonneg (by omega)
    simp [htn, hct]

/-- `parse_bytestring` on a rendered length, colon and `b.length` raw bytes:
yields `Bytestring b` with the cursor one past the copied bytes, for any
following bytes. -/
theorem parse_bytestring_spec (b : Bytes) (pre rest : Bytes) :
    parse_bytestring (pre ++ (natToDigits b.length ++ 58 :: (b ++ rest))) pre.length
      = some (.Bytestring b, pre.length + (natToDigits b.length).length + 1 + b.length) := by
  rw [parse_bytestring]
  rw [parse_len_loop_digitSeq (natToDigits b.length) (natToDigits_mem _) 0 pre (b ++ rest)]
  rw [lenVal_natToDigits]
  simp only [Nat.zero_mul, Nat.zero_add]
  have hle : pre.length + (natToDigits b.length).length + 1 + b.length
      ≤ (pre ++ (natToDigits b.length ++ 58 :: (b ++ rest))).length := by
    simp only [List.length_append, List.length_cons]
    omega
  rw [if_pos (Or.inr (by omega : (pre.length + (natToDigits b.length).length + 1) + b.length
    ≤ (pre ++ (natToDigits b.length ++ 58 :: (b ++ rest))).length))]
  have hsplit : pre ++ (natToDigits b.length ++ 58 :: (b ++ rest))
      = (pre ++ natToDigits b.length ++ [58]) ++ (b ++ rest) := by simp
  have hplen : pre.length + (natToDigits b.length).length + 1
      = (pre ++ natToDigits b.length ++ [58]).length := by
    simp only [List.length_append, List.length_cons, List.length_nil]
  rw [hsplit, hplen, List.drop_left, List.take_left]

/-! ## The byte-lexicographic order -/

/-- `bytesLt` is irreflexive. -/
theorem bytesLt_irrefl : ∀ a : Bytes, bytesLt a a = false := by
  intro a
  induction a with
  | nil => rfl
  | cons x xs ih => simp [bytesLt, ih]

/-- `bytesLt` is transitive. -/
theorem bytesLt_trans : ∀ a b c : Bytes,
    bytesLt a b = true → bytesLt b c = true → bytesLt a c = true := by
  intro a
  induction a with
  | nil =>
    intro b c hab hbc
    cases b with
    | nil => simp [bytesLt] at hab
    | cons y ys =>
      cases c with
      | nil => simp [bytesLt] at hbc
      | cons z zs => simp [bytesLt]
  | cons x xs ih =>
    intro b c hab hbc
    cases b with
    | nil => simp [bytesLt] at hab
    | cons y ys =>
      cases c with
      | nil => simp [bytesLt] at hbc
      | cons z zs =>
        simp only [bytesLt] at hab hbc ⊢
        rcases Nat.lt_trichotomy x y with hxy | hxy | hxy
        · rcases Nat.lt_trichotomy y z with hyz | hyz | hyz
          · rw [if_pos (by omega : x < z)]
          · rw [if_pos (by omega : x < z)]
          · rw [if_pos hyz, if_neg (by omega : ¬ (y < z))] at hbc
            simp at hbc
        · subst hxy
          rw [if_neg (by omega : ¬ (x < x)), if_neg (by omega : ¬ (x < x))] at hab
          rcases Nat.lt_trichotomy x z with hyz | hyz | hyz
          · rw [if_pos hyz]
          · subst hyz
            rw [if_neg (by omega : ¬ (x < x)), if_neg (by omega : ¬ (x < x))] at hbc ⊢
            exact ih ys zs hab hbc
          · rw [if_pos hyz, if_neg (by omega : ¬ (x < z))] at hbc
            simp at hbc
        · rw [if_pos hxy, if_neg (by omega : ¬ (x < y))] at hab
          simp at hab

/-- Adjacent strict sortedness extends to all pairs (transitivity). -/
theorem keysSorted_pairwise : ∀ ps : List (Bytes × Bencoded), keysSorted ps = true →
    List.Pairwise (fun p q : Bytes × Bencoded => bytesLt p.1 q.1 = true) ps := by
  intro ps
  induction ps with
  | nil => intro _; exact List.Pairwise.nil
  | cons p ps ih =>
    intro h
    cases ps with
    | nil => simp
    | cons q ps2 =>
      have h2 : bytesLt p.1 q.1 = true ∧ keysSorted (q :: ps2) = true := by
        simpa [keysSorted] using h
      have hrest := ih h2.2
      refine List.Pairwise.cons ?_ hrest
      intro r hr
      rcases List.mem_cons.mp hr with hrq | hr2
      · subst hrq; exact h2.1
      · have := (List.pairwise_cons.mp hrest).1 r hr2
        exact bytesLt_trans _ _ _ h2.1 this

/-- Sorted keys are pairwise distinct. -/
theorem keysSorted_distinct (ps : List (Bytes × Bencoded)) (h : keysSorted ps = true) :
    List.Pairwise (fun p q : Bytes × Bencoded => p.1 ≠ q.1) ps := by
  refine (keysSorted_pairwise ps h).imp ?_
  intro p q hlt heq
  rw [heq] at hlt
  rw [bytesLt_irrefl] at hlt
  cases hlt

/-- Inserting a fresh key appends the pair. -/
theorem insertPair_fresh : ∀ (acc : List (Bytes × Bencoded)) (k : Bytes) (v : Bencoded),
    (∀ q ∈ acc, q.1 ≠ k) → insertPair acc k v = acc ++ [(k, v)] := by
  intro acc k v
  induction acc with
  | nil => intro _; rfl
  | cons q qs ih =>
    intro h
    have hq : q.1 ≠ k := h q (List.mem_cons_self q qs)
    simp only [insertPair, if_neg hq, List.cons_append, List.cons.injEq, true_and]
    exact ih (fun r hr => h r (List.mem_cons_of_mem q hr))

/-- Folding `insert` over pairs with pairwise-distinct keys, none already
present, appends them in order: this is how the decoder's `HashMap` ends up
holding exactly the parsed pairs. -/
theorem foldl_insertPair_append :
    ∀ (ps acc : List (Bytes × Bencoded)),
      List.Pairwise (fun p q : Bytes × Bencoded => p.1 ≠ q.1) ps →
      (∀ p ∈ ps, ∀ q ∈ acc, q.1 ≠ p.1) →
      ps.foldl (fun m p => insertPair m p.1 p.2) acc = acc ++ ps := by
  intro ps
  induction ps with
  | nil => intro acc _ _; simp
  | cons p ps ih =>
    intro acc hpair hacc
    simp only [List.foldl_cons]
    rw [insertPair_fresh acc p.1 p.2 (fun q hq => hacc p (List.mem_cons_self p ps) q hq)]
    rw [ih (acc ++ [(p.1, p.2)]) (List.pairwise_cons.mp hpair).2 ?_]
    · simp
    · intro r hr q hq
      rcases List.mem_append.mp hq with hq1 | hq2
      · exact hacc r (List.mem_cons_of_mem p hr) q hq1
      · have : q = (p.1, p.2) := by simpa using hq2
        subst this
        exact (List.pairwise_cons.mp hpair).1 r hr

/-- Every spec encoding is nonempty and never starts with `e` (101): integers
start with `i` (105), bytestrings with a digit, lists with `l` (108),
dictionaries with `d` (100). -/
theorem specEncode_head (v : Bencoded) : ∃ c t, specEncode v = c :: t ∧ c ≠ 101 := by
  cases v with
  | Integer n => exact ⟨105, intToBytes n ++ [101], by simp [specEncode], by omega⟩
  | Bytestring b =>
    obtain ⟨c, t, h, h1, h2⟩ := natToDigits_head b.length
    exact ⟨c, t ++ 58 :: b, by simp [specEncode, h], by omega⟩
  | List vs => exact ⟨108, specEncodeList vs ++ [101], by simp [specEncode], by omega⟩
  | Dict m => exact ⟨100, specEncodePairs m ++ [101], by simp [specEncode], by omega⟩


/-! ## The decoder inverts the specified encoder

The mutual induction underlying both round-trip claims, packaged as one
strong induction on the structural size: parsing at the start of an embedded
spec encoding returns exactly the encoded value and stops at its end,
whatever bytes precede and follow it. -/

/-- Strong-induction package for the three mutually recursive round-trip
statements (values, list bodies, dictionary bodies). -/
theorem roundtrip_main : ∀ N : Nat,
    (∀ v : Bencoded, size v ≤ N → specCanonical v = true → ∀ pre rest : Bytes,
      parse_bencoded (pre ++ (specEncode v ++ rest)) pre.length
        = some (v, pre.length + (specEncode v).length)) ∧
    (∀ vs : List Bencoded, sizeList vs ≤ N → specCanonicalList vs = true →
      ∀ (acc : List Bencoded) (pre rest : Bytes),
      parse_list (pre ++ (specEncodeList vs ++ 101 :: rest)) pre.length acc
        = some (acc ++ vs, pre.length + (specEncodeList vs).length + 1)) ∧
    (∀ ps : List (Bytes × Bencoded), sizePairs ps ≤ N → specCanonicalPairs ps = true →
      ∀ (acc : List (Bytes × Bencoded)) (pre rest : Bytes),
      parse_dict (pre ++ (specEncodePairs ps ++ 101 :: rest)) pre.length acc
        = some (ps.foldl (fun m p => insertPair m p.1 p.2) acc,
            pre.length + (specEncodePairs ps).length + 1)) := by
  intro N
  induction N using Nat.strong_induction_on with
  | _ N ih =>
    refine ⟨?_, ?_, ?_⟩
    · -- values
      intro v hsz hc pre rest
      cases v with
      | Integer n =>
        have hhead : (pre ++ (specEncode (.Integer n) ++ rest))[pre.length]? = some 105 := by
          simp only [specEncode, List.cons_append]
          exact getByte_head pre 105 (intToBytes n ++ [101] ++ rest)
        rw [parse_bencoded_i hhead]
        have hre : pre ++ (specEncode (.Integer n) ++ rest)
            = (pre ++ [105]) ++ (intToBytes n ++ 101 :: rest) := by
          simp [specEncode]
        rw [hre, show pre.length + 1 = (pre ++ [105]).length by simp,
          parse_integer_spec n (pre ++ [105]) rest]
        simp [specEncode]
        omega
      | Bytestring b =>
        obtain ⟨c, t, hct, h1, h2⟩ := natToDigits_head b.length
        have hhead : (pre ++ (specEncode (.Bytestring b) ++ rest))[pre.length]? = some c := by
          simp only [specEncode, hct, List.cons_append, List.append_assoc]
          exact getByte_head pre c (t ++ (58 :: b ++ rest))
        rw [parse_bencoded_other hhead (by omega) (by omega) (by omega)]
        have hre : pre ++ (specEncode (.Bytestring b) ++ rest)
            = pre ++ (natToDigits b.length ++ 58 :: (b ++ rest)) := by
          simp [specEncode]
        rw [hre, parse_bytestring_spec b pre rest]
        simp [specEncode]
        omega
      | List vs =>
        have hszl : sizeList vs ≤ N - 1 ∧ 1 ≤ N := by
          simp [size, sizeList] at hsz
          omega
        have hhead : (pre ++ (specEncode (.List vs) ++ rest))[pre.length]? = some 108 := by
          simp only [specEncode, List.cons_append]
          exact getByte_head pre 108 (specEncodeList vs ++ [101] ++ rest)
        rw [parse_bencoded_l hhead]
        have hre : pre ++ (specEncode (.List vs) ++ rest)
            = (pre ++ [108]) ++ (specEncodeList vs ++ 101 :: rest) := by
          simp [specEncode]
        have hcl : specCanonicalList vs = true := by simpa [specCanonical] using hc
        rw [hre, show pre.length + 1 = (pre ++ [108]).length by simp,
          (ih (N - 1) (by omega)).2.1 vs hszl.1 hcl [] (pre ++ [108]) rest]
        simp [specEncode]
        omega
      | Dict m =>
        have hszd : sizePairs m ≤ N - 1 ∧ 1 ≤ N := by
          simp [size, sizePairs] at hsz
          omega
        have hhead : (pre ++ (specEncode (.Dict m) ++ rest))[pre.length]? = some 100 := by
          simp only [specEncode, List.cons_append]
          exact getByte_head pre 100 (specEncodePairs m ++ [101] ++ rest)
        rw [parse_bencoded_d hhead]
        have hre : pre ++ (specEncode (.Dict m) ++ rest)
            = (pre ++ [100]) ++ (specEncodePairs m ++ 101 :: rest) := by
          simp [specEncode]
        have hck : keysSorted m = true ∧ specCanonicalPairs m = true := by
          simpa [specCanonical] using hc
        rw [hre, show pre.length + 1 = (pre ++ [100]).length by simp,
          (ih (N - 1) (by omega)).2.2 m hszd.1 hck.2 [] (pre ++ [100]) rest]
        rw [foldl_insertPair_append m [] (keysSorted_distinct m hck.1)
          (fun p _ q hq => absurd hq (List.not_mem_nil q))]
        simp [specEncode]
        omega
    · -- list bodies
      intro vs hsz hc acc pre rest
      cases vs with
      | nil =>
        simp only [specEncodeList, List.nil_append]
        rw [parse_list_e (getByte_head pre 101 rest) acc]
        simp [specEncodeList]
      | cons v vs2 =>
        have hszs : size v ≤ N - 1 ∧ sizeList vs2 ≤ N - 1 ∧ 1 ≤ N := by
          simp [sizeList] at hsz
          omega
        have hcv : specCanonical v = true ∧ specCanonicalList vs2 = true := by
          simpa [specCanonicalList] using hc
        obtain ⟨c, t, hct, h101⟩ := specEncode_head v
        have hshape : pre ++ (specEncodeList (v :: vs2) ++ 101 :: rest)
            = pre ++ (specEncode v ++ (specEncodeList vs2 ++ 101 :: rest)) := by
          simp [specEncodeList]
        rw [hshape]
        have hhead : (pre ++ (specEncode v
            ++ (specEncodeList vs2 ++ 101 :: rest)))[pre.length]? = some c := by
          rw [hct]
          simp only [List.cons_append]
          exact getByte_head pre c (t ++ (specEncodeList vs2 ++ 101 :: rest))
        have hp := (ih (N - 1) (by omega)).1 v hszs.1 hcv.1 pre
          (specEncodeList vs2 ++ 101 :: rest)
        have hadv : pre.length < pre.length + (specEncode v).length := by
          rw [hct]; simp
        rw [parse_list_step hhead h101 hp hadv acc]
        have hre : pre ++ (specEncode v ++ (specEncodeList vs2 ++ 101 :: rest))
            = (pre ++ specEncode v) ++ (specEncodeList vs2 ++ 101 :: rest) := by
          simp
        rw [hre, show pre.length + (specEncode v).length = (pre ++ specEncode v).length by simp,
          (ih (N - 1) (by omega)).2.1 vs2 hszs.2.1 hcv.2 (acc ++ [v]) (pre ++ specEncode v) rest]
        simp [specEncodeList]
        omega
    · -- dictionary bodies
      intro ps hsz hc acc pre rest
      cases ps with
      | nil =>
        simp only [specEncodePairs, List.nil_append]
        rw [parse_dict_e (getByte_head pre 101 rest) acc]
        simp [specEncodePairs]
      | cons p ps2 =>
        obtain ⟨k, val⟩ := p
        have hszs : size val ≤ N - 1 ∧ sizePairs ps2 ≤ N - 1 ∧ 1 ≤ N := by
          simp [sizePairs] at hsz
          omega
        have hcv : specCanonical val = true ∧ specCanonicalPairs ps2 = true := by
          simpa [specCanonicalPairs] using hc
        obtain ⟨c, t, hct, h1, h2⟩ := natToDigits_head k.length
        have hshape : pre ++ (specEncodePairs ((k, val) :: ps2) ++ 101 :: rest)
            = pre ++ (natToDigits k.length
                ++ 58 :: (k ++ (specEncode val ++ (specEncodePairs ps2 ++ 101 :: rest)))) := by
          simp [specEncodePairs]
        rw [hshape]
        have hhead : (pre ++ (natToDigits k.length
            ++ 58 :: (k ++ (specEncode val
              ++ (specEncodePairs ps2 ++ 101 :: rest)))))[pre.length]? = some c := by
          rw [hct]
          simp only [List.cons_append]
          exact getByte_head pre c (t ++ 58 :: (k ++ (specEncode val
            ++ (specEncodePairs ps2 ++ 101 :: rest))))
        have hk := parse_bytestring_spec k pre
          (specEncode val ++ (specEncodePairs ps2 ++ 101 :: rest))
        have ha1 : pre.length < pre.length + (natToDigits k.length).length + 1 + k.length := by
          omega
        have hre2 : pre ++ (natToDigits k.length
            ++ 58 :: (k ++ (specEncode val ++ (specEncodePairs ps2 ++ 101 :: rest))))
            = (pre ++ natToDigits k.length ++ 58 :: k)
                ++ (specEncode val ++ (specEncodePairs ps2 ++ 101 :: rest)) := by
          simp
        have hplen2 : pre.length + (natToDigits k.length).length + 1 + k.length
            = (pre ++ natToDigits k.length ++ 58 :: k).length := by
          simp only [List.length_append, List.length_cons]
          omega
        have hv : parse_bencoded (pre ++ (natToDigits k.length
            ++ 58 :: (k ++ (specEncode val ++ (specEncodePairs ps2 ++ 101 :: rest)))))
              (pre.length + (natToDigits k.length).length + 1 + k.length)
            = some (val, pre.length + (natToDigits k.length).length + 1 + k.length
                + (specEncode val).length) := by
          rw [hre2, hplen2]
          have := (ih (N - 1) (by omega)).1 val hszs.1 hcv.1
            (pre ++ natToDigits k.length ++ 58 :: k) (specEncodePairs ps2 ++ 101 :: rest)
          rw [this]
        have ha2 : pre.length < pre.length + (natToDigits k.length).length + 1 + k.length
            + (specEncode val).length := by
          omega
        rw [parse_dict_step hhead (by omega : c ≠ 101) hk ha1 hv ha2 acc]
        have hre3 : pre ++ (natToDigits k.length
            ++ 58 :: (k ++ (specEncode val ++ (specEncodePairs ps2 ++ 101 :: rest))))
            = ((pre ++ natToDigits k.length ++ 58 :: k) ++ specEncode val)
                ++ (specEncodePairs ps2 ++ 101 :: rest) := by
          simp
        have hplen3 : pre.length + (natToDigits k.length).length + 1 + k.length
            + (specEncode val).length
            = ((pre ++ natToDigits k.length ++ 58 :: k) ++ specEncode val).length := by
          simp only [List.length_append, List.length_cons]
          omega
        rw [hre3, hplen3, (ih (N - 1) (by omega)).2.2 ps2 hszs.2.1 hcv.2
          (insertPair acc k val) ((pre ++ natToDigits k.length ++ 58 :: k)
            ++ specEncode val) rest]
        simp only [List.foldl_cons, specEncodePairs, Option.some.injEq, Prod.mk.injEq,
          List.length_append, List.length_cons]
        exact ⟨trivial, by omega⟩

/-- Parsing a canonically encoded value embedded in any buffer returns that
value and consumes exactly its encoding. -/
theorem parse_specEncode (v : Bencoded) (hc : specCanonical v = true) (pre rest : Bytes) :
    parse_bencoded (pre ++ (specEncode v ++ rest)) pre.length
      = some (v, pre.length + (specEncode v).length) :=
  (roundtrip_main (size v)).1 v (le_refl _) hc pre rest

/-! ## The encoder on canonical ASCII values -/

/-- `bytesLt` is asymmetric. -/
theorem bytesLt_asymm {a b : Bytes} (h : bytesLt a b = true) : bytesLt b a = false := by
  by_contra hc
  have hba : bytesLt b a = true := by
    cases hb : bytesLt b a
    · exact absurd hb hc
    · rfl
  have := bytesLt_trans a b a h hba
  rw [bytesLt_irrefl] at this
  cases this

/-- Pushing ASCII bytes as `char`s is the identity on the byte sequence. -/
theorem encBytes_ascii : ∀ b : Bytes, (∀ c ∈ b, c < 128) → encBytes b = b := by
  intro b
  induction b with
  | nil => intro _; rfl
  | cons c cs ih =>
    intro h
    have hc : c < 128 := h c (List.mem_cons_self c cs)
    simp only [encBytes, encodeChar, if_pos hc, List.cons_append, List.nil_append,
      List.cons.injEq, true_and]
    exact ih (fun d hd => h d (List.mem_cons_of_mem c hd))

/-- On ASCII contents the `Display` bytestring rendering is the spec's. -/
theorem encodeBytestring_ascii (k : Bytes) (h : ∀ c ∈ k, c < 128) :
    encodeBytestring k = natToDigits k.length ++ 58 :: k := by
  rw [encodeBytestring, encBytes_ascii k h]

/-- Sorted keys of a value dictionary transfer to its rendered pairs. -/
theorem pairsSorted_encodePairs : ∀ m : List (Bytes × Bencoded),
    keysSorted m = true → pairsSorted (encodePairs m) = true := by
  intro m
  induction m with
  | nil => intro _; rfl
  | cons p ps ih =>
    intro h
    cases ps with
    | nil => rfl
    | cons q ps2 =>
      have h2 : bytesLt p.1 q.1 = true ∧ keysSorted (q :: ps2) = true := by
        simpa [keysSorted] using h
      have := ih h2.2
      simp only [encodePairs, pairsSorted] at this ⊢
      simp [h2.1, this]

/-- Inserting below a strictly larger head key puts the pair in front. -/
theorem insertSorted_front (p q : Bytes × Bytes) (qs : List (Bytes × Bytes))
    (h : bytesLt p.1 q.1 = true) :
    insertSorted p (q :: qs) = p :: q :: qs := by
  rw [insertSorted, if_neg]
  rw [bytesLt_asymm h]
  simp

/-- Sorting an already strictly sorted pair list is the identity: the
encode-time sort of a canonical dictionary representative changes nothing. -/
theorem sortPairs_of_sorted : ∀ l : List (Bytes × Bytes),
    pairsSorted l = true → sortPairs l = l := by
  intro l
  induction l with
  | nil => intro _; rfl
  | cons p ps ih =>
    intro h
    cases ps with
    | nil => rfl
    | cons q ps2 =>
      have h2 : bytesLt p.1 q.1 = true ∧ pairsSorted (q :: ps2) = true := by
        simpa [pairsSorted] using h
      rw [sortPairs, ih h2.2, insertSorted_front p q ps2 h2.1]

/-- The strong-induction package for `encode = specEncode` on canonical
ASCII-content values. -/
theorem encode_eq_main : ∀ N : Nat,
    (∀ v : Bencoded, size v ≤ N → specCanonical v = true → asciiOnly v = true →
      encode v = specEncode v) ∧
    (∀ vs : List Bencoded, sizeList vs ≤ N → specCanonicalList vs = true →
      asciiOnlyList vs = true → encodeList vs = specEncodeList vs) ∧
    (∀ ps : List (Bytes × Bencoded), sizePairs ps ≤ N → specCanonicalPairs ps = true →
      asciiOnlyPairs ps = true → joinPairs (encodePairs ps) = specEncodePairs ps) := by
  intro N
  induction N using Nat.strong_induction_on with
  | _ N ih =>
    refine ⟨?_, ?_, ?_⟩
    · intro v hsz hc ha
      cases v with
      | Integer n => rfl
      | Bytestring b =>
        have hb : ∀ c ∈ b, c < 128 := by
          simpa [asciiOnly, List.all_eq_true, decide_eq_true_eq] using ha
        simp only [encode, specEncode]
        exact encodeBytestring_ascii b hb
      | List vs =>
        have hszl : sizeList vs ≤ N - 1 ∧ 1 ≤ N := by
          simp [size, sizeList] at hsz
          omega
        have hcl : specCanonicalList vs = true := by simpa [specCanonical] using hc
        have hal : asciiOnlyList vs = true := by simpa [asciiOnly] using ha
        simp only [encode, specEncode]
        rw [(ih (N - 1) (by omega)).2.1 vs hszl.1 hcl hal]
      | Dict m =>
        have hszd : sizePairs m ≤ N - 1 ∧ 1 ≤ N := by
          simp [size, sizePairs] at hsz
          omega
        have hck : keysSorted m = true ∧ specCanonicalPairs m = true := by
          simpa [specCanonical] using hc
        have had : asciiOnlyPairs m = true := by simpa [asciiOnly] using ha
        simp only [encode, specEncode]
        rw [sortPairs_of_sorted (encodePairs m) (pairsSorted_encodePairs m hck.1),
          (ih (N - 1) (by omega)).2.2 m hszd.1 hck.2 had]
    · intro vs hsz hc ha
      cases vs with
      | nil => rfl
      | cons v vs2 =>
        have hszs : size v ≤ N - 1 ∧ sizeList vs2 ≤ N - 1 ∧ 1 ≤ N := by
          simp [sizeList] at hsz
          omega
        have hcv : specCanonical v = true ∧ specCanonicalList vs2 = true := by
          simpa [specCanonicalList] using hc
        have hav : asciiOnly v = true ∧ asciiOnlyList vs2 = true := by
          simpa [asciiOnlyList] using ha
        simp only [encodeList, specEncodeList]
        rw [(ih (N - 1) (by omega)).1 v hszs.1 hcv.1 hav.1,
          (ih (N - 1) (by omega)).2.1 vs2 hszs.2.1 hcv.2 hav.2]
    · intro ps hsz hc ha
      cases ps with
      | nil => rfl
      | cons p ps2 =>
        obtain ⟨k, val⟩ := p
        have hszs : size val ≤ N - 1 ∧ sizePairs ps2 ≤ N - 1 ∧ 1 ≤ N := by
          simp [sizePairs] at hsz
          omega
        have hcv : specCanonical val = true ∧ specCanonicalPairs ps2 = true := by
          simpa [specCanonicalPairs] using hc
        have hav : (∀ c ∈ k, c < 128) ∧ asciiOnly val = true ∧ asciiOnlyPairs ps2 = true := by
          simpa [asciiOnlyPairs, List.all_eq_true, decide_eq_true_eq, and_assoc] using ha
        simp only [encodePairs, joinPairs, specEncodePairs]
        rw [encodeBytestring_ascii k hav.1,
          (ih (N - 1) (by omega)).1 val hszs.1 hcv.1 hav.2.1,
          (ih (N - 1) (by omega)).2.2 ps2 hszs.2.1 hcv.2 hav.2.2]

/-- On canonical values whose bytestrings and keys are ASCII, the `Display`
encoder produces exactly the spec's canonical encoding. -/
theorem encode_eq_specEncode (v : Bencoded) (hc : specCanonical v = true)
    (ha : asciiOnly v = true) : encode v = specEncode v :=
  (encode_eq_main (size v)).1 v (le_refl _) hc ha

/-! ## Lookup and insertion on the map representative -/

/-- Lookup after an insert: the inserted key finds the new value, other keys
are untouched. -/
theorem lookupKey_insertPair : ∀ (m : List (Bytes × Bencoded)) (k : Bytes) (v : Bencoded)
    (k2 : Bytes), lookupKey (insertPair m k v) k2 = if k = k2 then some v else lookupKey m k2 := by
  intro m k v
  induction m with
  | nil =>
    intro k2
    by_cases h : k = k2
    · simp [insertPair, lookupKey, h]
    · simp [insertPair, lookupKey, h]
  | cons p ps ih =>
    intro k2
    by_cases hp : p.1 = k
    · rw [insertPair, if_pos hp]
      by_cases h : k = k2
      · simp [lookupKey, h]
      · simp only [lookupKey, if_neg h]
        rw [if_neg (by rw [hp]; exact h)]
    · rw [insertPair, if_neg hp]
      by_cases h : k = k2
      · subst h
        simp only [lookupKey, if_neg hp, ih k]
      · by_cases hpk : p.1 = k2
        · simp [lookupKey, hpk, h]
        · simp [lookupKey, hpk, h, ih k2]

/-- A lookup that misses every key returns nothing, and conversely. -/
theorem lookupKey_eq_none : ∀ (m : List (Bytes × Bencoded)) (k : Bytes),
    lookupKey m k = none ↔ ∀ p ∈ m, p.1 ≠ k := by
  intro m k
  induction m with
  | nil => simp [lookupKey]
  | cons p ps ih =>
    by_cases hp : p.1 = k
    · simp [lookupKey, hp]
    · simp [lookupKey, hp, ih]

/-- A successful lookup returns a stored pair. -/
theorem lookupKey_mem : ∀ (m : List (Bytes × Bencoded)) (k : Bytes) (v : Bencoded),
    lookupKey m k = some v → (k, v) ∈ m := by
  intro m k v
  induction m with
  | nil => intro h; cases h
  | cons p ps ih =>
    intro h
    by_cases hp : p.1 = k
    · rw [lookupKey, if_pos hp] at h
      cases h
      rw [← hp]
      exact List.mem_cons_self _ _
    · rw [lookupKey, if_neg hp] at h
      exact List.mem_cons_of_mem p (ih h)

/-- A present key is found. -/
theorem lookupKey_isSome : ∀ (m : List (Bytes × Bencoded)) (k : Bytes),
    k ∈ m.map Prod.fst → ∃ v, lookupKey m k = some v := by
  intro m k
  induction m with
  | nil => intro h; simp at h
  | cons p ps ih =>
    intro h
    by_cases hp : p.1 = k
    · exact ⟨p.2, by rw [lookupKey, if_pos hp]⟩
    · have : k ∈ ps.map Prod.fst := by
        rcases List.mem_map.mp h with ⟨q, hq, hqk⟩
        rcases List.mem_cons.mp hq with hq1 | hq2
        · exact absurd (by rw [hq1] at hqk; exact hqk) hp
        · exact List.mem_map.mpr ⟨q, hq2, hqk⟩
      rcases ih this with ⟨v, hv⟩
      exact ⟨v, by rw [lookupKey, if_neg hp]; exact hv⟩

/-- Folding inserts whose keys all differ from `k` does not change the
lookup at `k`. -/
theorem lookup_foldl_insert_miss : ∀ (ps : List (Bytes × Bencoded))
    (acc : List (Bytes × Bencoded)) (k : Bytes), (∀ p ∈ ps, p.1 ≠ k) →
    lookupKey (ps.foldl (fun m p => insertPair m p.1 p.2) acc) k = lookupKey acc k := by
  intro ps
  induction ps with
  | nil => intro acc k _; rfl
  | cons p ps2 ih =>
    intro acc k h
    simp only [List.foldl_cons]
    rw [ih _ k (fun q hq => h q (List.mem_cons_of_mem p hq)), lookupKey_insertPair]
    rw [if_neg (h p (List.mem_cons_self p ps2))]

/-- A hit in the left part of an appended list wins. -/
theorem lookupKey_append_hit : ∀ (l1 l2 : List (Bytes × Bencoded)) (k : Bytes) (w : Bencoded),
    lookupKey l1 k = some w → lookupKey (l1 ++ l2) k = some w := by
  intro l1 l2 k w
  induction l1 with
  | nil => intro h; cases h
  | cons p ps ih =>
    intro h
    by_cases hp : p.1 = k
    · rw [lookupKey, if_pos hp] at h
      simp only [List.cons_append, lookupKey, if_pos hp]
      exact h
    · rw [lookupKey, if_neg hp] at h
      simp only [List.cons_append, lookupKey, if_neg hp]
      exact ih h

/-- A miss in the left part of an appended list defers to the right part. -/
theorem lookupKey_append_miss : ∀ (l1 l2 : List (Bytes × Bencoded)) (k : Bytes),
    (∀ p ∈ l1, p.1 ≠ k) → lookupKey (l1 ++ l2) k = lookupKey l2 k := by
  intro l1 l2 k
  induction l1 with
  | nil => intro _; rfl
  | cons p ps ih =>
    intro h
    have hp : p.1 ≠ k := h p (List.mem_cons_self p ps)
    simp only [List.cons_append, lookupKey, if_neg hp]
    exact ih (fun q hq => h q (List.mem_cons_of_mem p hq))

/-- After folding all inserts, a key maps to the value of its last
occurrence in the pair sequence (the first occurrence in the reversed
sequence). -/
theorem lookup_foldl_insert : ∀ (ps : List (Bytes × Bencoded))
    (acc : List (Bytes × Bencoded)) (k : Bytes) (v : Bencoded),
    lookupKey ps.reverse k = some v →
    lookupKey (ps.foldl (fun m p => insertPair m p.1 p.2) acc) k = some v := by
  intro ps
  induction ps with
  | nil => intro acc k v h; cases h
  | cons p ps2 ih =>
    intro acc k v h
    simp only [List.foldl_cons]
    rw [List.reverse_cons] at h
    cases htl : lookupKey ps2.reverse k with
    | some w =>
      rw [lookupKey_append_hit _ _ _ _ htl] at h
      cases h
      exact ih _ k _ htl
    | none =>
      have hmiss1 := (lookupKey_eq_none _ _).mp htl
      rw [lookupKey_append_miss _ _ _ hmiss1] at h
      have hpk : p.1 = k ∧ v = p.2 := by
        by_cases hq : p.1 = k
        · rw [lookupKey, if_pos hq] at h
          cases h
          exact ⟨hq, rfl⟩
        · rw [lookupKey, if_neg hq] at h
          cases h
      have hmiss : ∀ q ∈ ps2, q.1 ≠ k := fun q hq => hmiss1 q (List.mem_reverse.mpr hq)
      rw [lookup_foldl_insert_miss ps2 _ k hmiss, lookupKey_insertPair, if_pos hpk.1, hpk.2]

/-! ## The key sort of the `Dict` encoder -/

/-- Two mutually non-smaller byte sequences are equal (the order is total). -/
theorem bytesLt_connex : ∀ a b : Bytes,
    bytesLt a b = false → bytesLt b a = false → a = b := by
  intro a
  induction a with
  | nil =>
    intro b h1 h2
    cases b with
    | nil => rfl
    | cons y ys => simp [bytesLt] at h1
  | cons x xs ih =>
    intro b h1 h2
    cases b with
    | nil => simp [bytesLt] at h2
    | cons y ys =>
      simp only [bytesLt] at h1 h2
      rcases Nat.lt_trichotomy x y with hxy | hxy | hxy
      · rw [if_pos hxy] at h1
        cases h1
      · subst hxy
        rw [if_neg (by omega : ¬ (x < x)), if_neg (by omega : ¬ (x < x))] at h1 h2
        rw [ih ys h1 h2]
      · rw [if_pos hxy] at h2
        cases h2

/-- Totality of the strict order. -/
theorem bytesLt_total (a b : Bytes) :
    bytesLt a b = true ∨ bytesLt b a = true ∨ a = b := by
  cases hab : bytesLt a b
  · cases hba : bytesLt b a
    · exact Or.inr (Or.inr (bytesLt_connex a b hab hba))
    · exact Or.inr (Or.inl rfl)
  · exact Or.inl rfl

/-- Transitivity of the nonstrict order `¬ (· > ·)`. -/
theorem bytesNotLt_trans {a b c : Bytes}
    (h1 : bytesLt b a = false) (h2 : bytesLt c b = false) : bytesLt c a = false := by
  cases hca : bytesLt c a
  · rfl
  · exfalso
    rcases bytesLt_total a b with h | h | h
    · have := bytesLt_trans c a b hca h
      rw [h2] at this
      cases this
    · rw [h1] at h
      cases h
    · subst h
      rw [h2] at hca
      cases hca

/-- Adjacent nonstrict sortedness extends to all pairs. -/
theorem pairsSortedLe_pairwise : ∀ l : List (Bytes × Bytes), pairsSortedLe l = true →
    List.Pairwise (fun p q : Bytes × Bytes => bytesLt q.1 p.1 = false) l := by
  intro l
  induction l with
  | nil => intro _; exact List.Pairwise.nil
  | cons p ps ih =>
    intro h
    cases ps with
    | nil => simp
    | cons q ps2 =>
      have h2 : bytesLt q.1 p.1 = false ∧ pairsSortedLe (q :: ps2) = true := by
        have : (!(bytesLt q.1 p.1)) = true ∧ pairsSortedLe (q :: ps2) = true := by
          simpa [pairsSortedLe] using h
        exact ⟨by simpa using this.1, this.2⟩
      have hrest := ih h2.2
      refine List.Pairwise.cons ?_ hrest
      intro r hr
      rcases List.mem_cons.mp hr with hrq | hr2
      · subst hrq; exact h2.1
      · have := (List.pairwise_cons.mp hrest).1 r hr2
        exact bytesNotLt_trans h2.1 this

/-- The nonstrict sortedness of a tail. -/
theorem pairsSortedLe_tail : ∀ (p : Bytes × Bytes) (l : List (Bytes × Bytes)),
    pairsSortedLe (p :: l) = true → pairsSortedLe l = true := by
  intro p l h
  cases l with
  | nil => rfl
  | cons q ps2 =>
    have : (!(bytesLt q.1 p.1)) = true ∧ pairsSortedLe (q :: ps2) = true := by
      simpa [pairsSortedLe] using h
    exact this.2

/-- Insertion produces a permutation of consing. -/
theorem insertSorted_perm : ∀ (l : List (Bytes × Bytes)) (p : Bytes × Bytes),
    (insertSorted p l).Perm (p :: l) := by
  intro l p
  induction l with
  | nil => exact List.Perm.refl _
  | cons q qs ih =>
    by_cases hq : bytesLt q.1 p.1 = true
    · rw [insertSorted, if_pos hq]
      exact (ih.cons q).trans (List.Perm.swap p q qs)
    · rw [insertSorted, if_neg hq]

/-- The sort produces a permutation of its input. -/
theorem sortPairs_perm : ∀ l : List (Bytes × Bytes), (sortPairs l).Perm l := by
  intro l
  induction l with
  | nil => exact List.Perm.refl _
  | cons p ps ih =>
    rw [sortPairs]
    exact (insertSorted_perm (sortPairs ps) p).trans (ih.cons p)

/-- Insertion preserves nonstrict sortedness. -/
theorem insertSorted_sortedLe : ∀ (l : List (Bytes × Bytes)) (p : Bytes × Bytes),
    pairsSortedLe l = true → pairsSortedLe (insertSorted p l) = true := by
  intro l
  induction l with
  | nil => intro p _; rfl
  | cons q qs ih =>
    intro p h
    by_cases hq : bytesLt q.1 p.1 = true
    · rw [insertSorted, if_pos hq]
      cases qs with
      | nil =>
        simp only [insertSorted, pairsSortedLe, bytesLt_asymm hq]
        rfl
      | cons r rs =>
        have hqr : (!(bytesLt r.1 q.1)) = true ∧ pairsSortedLe (r :: rs) = true := by
          simpa [pairsSortedLe] using h
        by_cases hr : bytesLt r.1 p.1 = true
        · have hins := ih p (pairsSortedLe_tail q (r :: rs) h)
          rw [insertSorted, if_pos hr] at hins ⊢
          simp only [pairsSortedLe, hins, Bool.and_true]
          exact hqr.1
        · rw [insertSorted, if_neg hr]
          simp only [pairsSortedLe, bytesLt_asymm hq, hr]
          simp only [Bool.not_false, Bool.true_and]
          have : pairsSortedLe (r :: rs) = true := hqr.2
          simp [this]
    · rw [insertSorted, if_neg hq]
      have hqf : bytesLt q.1 p.1 = false := by
        cases hb : bytesLt q.1 p.1
        · rfl
        · exact absurd hb hq
      simp only [pairsSortedLe, hqf, Bool.not_false, Bool.true_and]
      exact h

/-- The sort output is nonstrictly sorted. -/
theorem sortPairs_sortedLe : ∀ l : List (Bytes × Bytes),
    pairsSortedLe (sortPairs l) = true := by
  intro l
  induction l with
  | nil => rfl
  | cons p ps ih => exact insertSorted_sortedLe (sortPairs ps) p ih

/-- Two sorted permutations of one another with pairwise-distinct keys are
equal: the sorted order of a unique-keyed dictionary is unique, whatever the
stored order was. -/
theorem sorted_perm_eq : ∀ l1 l2 : List (Bytes × Bytes), l1.Perm l2 →
    pairsSortedLe l1 = true → pairsSortedLe l2 = true →
    List.Pairwise (fun p q : Bytes × Bytes => p.1 ≠ q.1) l1 → l1 = l2 := by
  intro l1
  induction l1 with
  | nil =>
    intro l2 hperm _ _ _
    exact (hperm.symm.eq_nil).symm ▸ rfl
  | cons p t1 ih =>
    intro l2 hperm hs1 hs2 hdist
    cases l2 with
    | nil => exact absurd hperm.eq_nil (by simp)
    | cons q t2 =>
      have hq_mem : q ∈ p :: t1 := hperm.symm.subset (List.mem_cons_self q t2)
      have hp_mem : p ∈ q :: t2 := hperm.subset (List.mem_cons_self p t1)
      have pw1 := List.pairwise_cons.mp (pairsSortedLe_pairwise _ hs1)
      have pw2 := List.pairwise_cons.mp (pairsSortedLe_pairwise _ hs2)
      have hpq : p = q := by
        rcases List.mem_cons.mp hq_mem with h | hqt1
        · exact h.symm
        rcases List.mem_cons.mp hp_mem with h2 | hpt2
        · exact h2
        exfalso
        have h1 : bytesLt q.1 p.1 = false := pw1.1 q hqt1
        have h2b : bytesLt p.1 q.1 = false := pw2.1 p hpt2
        have : q.1 = p.1 := bytesLt_connex q.1 p.1 h1 h2b
        exact ((List.pairwise_cons.mp hdist).1 q hqt1) this.symm
      subst hpq
      have htails := hperm.cons_inv
      rw [ih t2 htails (pairsSortedLe_tail p t1 hs1) (pairsSortedLe_tail p t2 hs2)
        (List.pairwise_cons.mp hdist).2]

/-- `encodePairs` is a map keeping the keys. -/
theorem encodePairs_eq_map : ∀ m : List (Bytes × Bencoded),
    encodePairs m = m.map (fun p => (p.1, encode p.2)) := by
  intro m
  induction m with
  | nil => rfl
  | cons p ps ih => simp [encodePairs, ih]

/-- Distinct keys transfer to the rendered pairs. -/
theorem encodePairs_distinct (m : List (Bytes × Bencoded))
    (h : List.Pairwise (fun p q : Bytes × Bencoded => p.1 ≠ q.1) m) :
    List.Pairwise (fun p q : Bytes × Bytes => p.1 ≠ q.1) (encodePairs m) := by
  rw [encodePairs_eq_map]
  exact (List.pairwise_map).mpr h

/-- The sorted rendered pairs of a unique-keyed dictionary do not depend on
the stored order. -/
theorem sortPairs_encodePairs_perm (m m2 : List (Bytes × Bencoded))
    (hdist : List.Pairwise (fun p q : Bytes × Bencoded => p.1 ≠ q.1) m)
    (hperm : m.Perm m2) :
    sortPairs (encodePairs m) = sortPairs (encodePairs m2) := by
  have hmap : (encodePairs m).Perm (encodePairs m2) := by
    rw [encodePairs_eq_map, encodePairs_eq_map]
    exact hperm.map _
  have hp : (sortPairs (encodePairs m)).Perm (sortPairs (encodePairs m2)) :=
    ((sortPairs_perm _).trans hmap).trans (sortPairs_perm _).symm
  refine sorted_perm_eq _ _ hp (sortPairs_sortedLe _) (sortPairs_sortedLe _) ?_
  exact ((sortPairs_perm (encodePairs m)).pairwise_iff (fun h => Ne.symm h)).mpr
    (encodePairs_distinct m hdist)

/-! ## Top-level round-trip forms -/

/-- `parse` of a whole canonical encoding returns the encoded value. -/
theorem parse_spec_roundtrip (v : Bencoded) (hc : specCanonical v = true) :
    parse (specEncode v) = some v := by
  have h := parse_specEncode v hc [] []
  simp only [List.nil_append, List.append_nil, List.length_nil] at h
  simp [parse, h]

/-- Nonstrict sortedness plus distinct keys is strict sortedness. -/
theorem sortedLe_distinct_strict : ∀ l : List (Bytes × Bytes),
    pairsSortedLe l = true →
    List.Pairwise (fun p q : Bytes × Bytes => p.1 ≠ q.1) l → pairsSorted l = true := by
  intro l
  induction l with
  | nil => intro _ _; rfl
  | cons p ps ih =>
    intro hs hd
    cases ps with
    | nil => rfl
    | cons q ps2 =>
      have h2 : (!(bytesLt q.1 p.1)) = true ∧ pairsSortedLe (q :: ps2) = true := by
        simpa [pairsSortedLe] using hs
      have hqp : bytesLt q.1 p.1 = false := by simpa using h2.1
      have hne : p.1 ≠ q.1 := (List.pairwise_cons.mp hd).1 q (List.mem_cons_self q ps2)
      have hlt : bytesLt p.1 q.1 = true := by
        cases hb : bytesLt p.1 q.1
        · exact absurd (bytesLt_connex p.1 q.1 hb hqp) hne
        · rfl
      simp only [pairsSorted, hlt, Bool.true_and]
      exact ih h2.2 (List.pairwise_cons.mp hd).2

/-- `parse` of a dictionary body wrapped in `d…e`, for arbitrary pair
sequences (duplicate keys allowed): the result is the fold of inserts. -/
theorem parse_dict_top (ps : List (Bytes × Bencoded)) (hvals : specCanonicalPairs ps = true) :
    parse (100 :: (specEncodePairs ps ++ [101]))
      = some (.Dict (ps.foldl (fun m p => insertPair m p.1 p.2) [])) := by
  have hd := (roundtrip_main (sizePairs ps)).2.2 ps (le_refl _) hvals [] [100] []
  simp only [List.cons_append, List.nil_append, List.length_cons, List.length_nil] at hd
  have h0 : (100 :: (specEncodePairs ps ++ 101 :: ([] : Bytes)))[0]? = some 100 := by simp
  have hb := parse_bencoded_d h0
  rw [show (0 : Nat) + 1 = 1 from rfl] at hb
  rw [hd] at hb
  have : (100 :: (specEncodePairs ps ++ 101 :: ([] : Bytes)))
      = 100 :: (specEncodePairs ps ++ [101]) := by simp
  rw [this] at hb
  simp [parse, hb]

/-! ## The claims -/

/-- C1 (amended): for every Value built from canonical components — every
dictionary stored with strictly ascending unique keys (the canonical
representative of a `HashMap`) — and, as the counterexample forces, with
every bytestring content byte and dictionary key byte ASCII (< 0x80),
decoding the encoder's output yields the value back:
`decode(encode(v)) == v`. -/
theorem C1_roundtrip_ascii (v : Bencoded) (hc : specCanonical v = true)
    (ha : asciiOnly v = true) : parse (encode v) = some v := by
  rw [encode_eq_specEncode v hc ha]
  exact parse_spec_roundtrip v hc

/-- C1 witness: a concrete canonical ASCII value round-trips. -/
theorem C1_roundtrip_ascii_witness :
    specCanonical (Bencoded.List [Bencoded.Integer (-42), Bencoded.Bytestring [104, 105]]) = true ∧
    asciiOnly (Bencoded.List [Bencoded.Integer (-42), Bencoded.Bytestring [104, 105]]) = true ∧
    parse (encode (Bencoded.List [Bencoded.Integer (-42), Bencoded.Bytestring [104, 105]]))
      = some (Bencoded.List [Bencoded.Integer (-42), Bencoded.Bytestring [104, 105]]) :=
  ⟨by decide, by decide,
    C1_roundtrip_ascii (Bencoded.List [Bencoded.Integer (-42), Bencoded.Bytestring [104, 105]])
      (by decide) (by decide)⟩

/-- C1 counterexample: the claim as stated fails on the code for the
canonical value `Bytestring([0xFF])`: the encoder pushes the byte `0xFF`
through `char` into a Rust `String`, whose UTF-8 bytes are `0xC3 0xBF`, so
the decoder reads back `Bytestring([0xC3]) ≠ Bytestring([0xFF])`. -/
theorem C1_counterexample :
    specCanonical (Bencoded.Bytestring [255]) = true ∧
    encode (Bencoded.Bytestring [255]) = [49, 58, 195, 191] ∧
    parse (encode (Bencoded.Bytestring [255])) = some (Bencoded.Bytestring [195]) ∧
    Bencoded.Bytestring [195] ≠ Bencoded.Bytestring [255] := by
  refine ⟨rfl, rfl, ?_, by simp⟩
  have he : encode (Bencoded.Bytestring [255]) = [49, 58, 195, 191] := rfl
  rw [he]
  have hb : parse_bencoded [49, 58, 195, 191] 0 = some (.Bytestring [195], 3) := by
    rw [parse_bencoded_other (show ([49, 58, 195, 191] : Bytes)[0]? = some 49 by decide)
      (by decide) (by decide) (by decide)]
    simp [parse_bytestring, parse_len_loop_digit, parse_len_loop_colon]
  simp [parse, hb]

/-- C2 (amended): for every canonically-encoded byte sequence — i.e.
`specEncode v` for a canonical value `v` — whose bytestring contents and
dictionary keys are ASCII (< 0x80), decoding yields `v` and re-encoding
reproduces the sequence byte for byte. -/
theorem C2_byte_roundtrip_ascii (v : Bencoded) (hc : specCanonical v = true)
    (ha : asciiOnly v = true) :
    parse (specEncode v) = some v ∧ encode v = specEncode v :=
  ⟨parse_spec_roundtrip v hc, encode_eq_specEncode v hc ha⟩

/-- C2 witness: a concrete canonical ASCII encoding survives
decode-then-encode byte for byte. -/
theorem C2_byte_roundtrip_ascii_witness :
    specCanonical (Bencoded.Dict [([110], Bencoded.Integer 42)]) = true ∧
    asciiOnly (Bencoded.Dict [([110], Bencoded.Integer 42)]) = true ∧
    specEncode (Bencoded.Dict [([110], Bencoded.Integer 42)])
      = [100, 49, 58, 110, 105, 52, 50, 101, 101] ∧
    parse [100, 49, 58, 110, 105, 52, 50, 101, 101]
      = some (Bencoded.Dict [([110], Bencoded.Integer 42)]) ∧
    encode (Bencoded.Dict [([110], Bencoded.Integer 42)])
      = [100, 49, 58, 110, 105, 52, 50, 101, 101] := by
  have h := C2_byte_roundtrip_ascii (Bencoded.Dict [([110], Bencoded.Integer 42)])
    (by decide) (by decide)
  have he : specEncode (Bencoded.Dict [([110], Bencoded.Integer 42)])
      = [100, 49, 58, 110, 105, 52, 50, 101, 101] := rfl
  exact ⟨by decide, by decide, he, by rw [← he]; exact h.1, by rw [← he]; exact h.2⟩

/-- C2 counterexample: the claim as stated fails on the code: the canonical
encoding `1:\xFF` (bytes `[49, 58, 255]`) decodes to `Bytestring([0xFF])`,
but re-encoding it produces `[49, 58, 195, 191]` (the UTF-8 expansion), not
the original sequence. -/
theorem C2_counterexample :
    specCanonical (Bencoded.Bytestring [255]) = true ∧
    specEncode (Bencoded.Bytestring [255]) = [49, 58, 255] ∧
    parse [49, 58, 255] = some (Bencoded.Bytestring [255]) ∧
    encode (Bencoded.Bytestring [255]) ≠ [49, 58, 255] := by
  refine ⟨rfl, rfl, ?_, by decide⟩
  have hb : parse_bencoded [49, 58, 255] 0 = some (.Bytestring [255], 3) := by
    rw [parse_bencoded_other (show ([49, 58, 255] : Bytes)[0]? = some 49 by decide)
      (by decide) (by decide) (by decide)]
    simp [parse_bytestring, parse_len_loop_digit, parse_len_loop_colon]
  simp [parse, hb]

/-- C3: evaluation of the code at the failing input.  The encoder's byte
output for `Bytestring([0xFF])` is `"1:"` followed by the two-byte UTF-8
expansion `0xC3 0xBF` — not the raw byte `0xFF` verbatim (which the spec
describes, and whose correct rendering `specEncode` produces); note the
length prefix `1` does not match the two emitted content bytes. -/
theorem C3_bytestring_expansion :
    encode (Bencoded.Bytestring [255]) = [49, 58, 195, 191] ∧
    [49, 58, 195, 191] ≠ [49, 58, 255] ∧
    specEncode (Bencoded.Bytestring [255]) = [49, 58, 255] :=
  ⟨rfl, by decide, rfl⟩

/-- C4: for every `Dict` with pairwise-distinct keys (as a `HashMap`
guarantees), the encoder's output is `d`, then the `(encoded key)(encoded
value)` pairs concatenated with no separators in the order produced by the
encode-time key sort, then `e`; that visiting order is strictly ascending in
byte-value key order, and the output does not depend on the stored order of
the entries. -/
theorem C4_dict_encode_sorted (m : List (Bytes × Bencoded))
    (hdist : List.Pairwise (fun p q : Bytes × Bencoded => p.1 ≠ q.1) m) :
    encode (.Dict m) = 100 :: (joinPairs (sortPairs (encodePairs m)) ++ [101]) ∧
    pairsSorted (sortPairs (encodePairs m)) = true ∧
    ∀ m2, m.Perm m2 → encode (.Dict m) = encode (.Dict m2) := by
  refine ⟨by simp [encode], ?_, ?_⟩
  · apply sortedLe_distinct_strict _ (sortPairs_sortedLe _)
    exact ((sortPairs_perm (encodePairs m)).pairwise_iff (fun h => Ne.symm h)).mpr
      (encodePairs_distinct m hdist)
  · intro m2 hpm
    have h := sortPairs_encodePairs_perm m m2 hdist hpm
    simp [encode, h]

/-- C4 witness: the spec's example — `{"foo": 42, "bar": "spam"}` stored in
either order encodes to `d3:bar4:spam3:fooi42ee` (`bar` before `foo`). -/
theorem C4_dict_encode_sorted_witness :
    List.Pairwise (fun p q : Bytes × Bencoded => p.1 ≠ q.1)
      [([102, 111, 111], Bencoded.Integer 42),
       ([98, 97, 114], Bencoded.Bytestring [115, 112, 97, 109])] ∧
    encode (Bencoded.Dict [([102, 111, 111], Bencoded.Integer 42),
        ([98, 97, 114], Bencoded.Bytestring [115, 112, 97, 109])])
      = [100, 51, 58, 98, 97, 114, 52, 58, 115, 112, 97, 109,
         51, 58, 102, 111, 111, 105, 52, 50, 101, 101] ∧
    encode (Bencoded.Dict [([102, 111, 111], Bencoded.Integer 42),
        ([98, 97, 114], Bencoded.Bytestring [115, 112, 97, 109])])
      = encode (Bencoded.Dict [([98, 97, 114], Bencoded.Bytestring [115, 112, 97, 109]),
        ([102, 111, 111], Bencoded.Integer 42)]) := by
  refine ⟨?_, by decide, ?_⟩
  · simp
  · exact (C4_dict_encode_sorted
      [([102, 111, 111], Bencoded.Integer 42),
       ([98, 97, 114], Bencoded.Bytestring [115, 112, 97, 109])]
      (by simp)).2.2
      [([98, 97, 114], Bencoded.Bytestring [115, 112, 97, 109]),
       ([102, 111, 111], Bencoded.Integer 42)]
      (List.Perm.swap _ _ _)

/-- C6: `get` is total; it returns the stored entry exactly when the value
is a `Dict` containing the key, and absent both when the value is not a
`Dict` and when the key is missing. -/
theorem C6_get_total (v : Bencoded) (k : Bytes) :
    (∀ m, v = Bencoded.Dict m → v.get k = lookupKey m k) ∧
    ((∀ m, v ≠ Bencoded.Dict m) → v.get k = none) ∧
    (∀ m, v = Bencoded.Dict m → k ∉ m.map Prod.fst → v.get k = none) ∧
    (∀ m, v = Bencoded.Dict m → k ∈ m.map Prod.fst →
      ∃ w, v.get k = some w ∧ (k, w) ∈ m) := by
  refine ⟨?_, ?_, ?_, ?_⟩
  · intro m hm
    subst hm
    rfl
  · intro h
    cases v with
    | Dict m => exact absurd rfl (h m)
    | Integer n => rfl
    | Bytestring b => rfl
    | List l => rfl
  · intro m hm hk
    subst hm
    show lookupKey m k = none
    rw [lookupKey_eq_none]
    intro p hp hpk
    exact hk (List.mem_map.mpr ⟨p, hp, hpk⟩)
  · intro m hm hk
    subst hm
    rcases lookupKey_isSome m k hk with ⟨w, hw⟩
    exact ⟨w, hw, lookupKey_mem m k w hw⟩

/-- C6 witness: the spec's lookup examples. -/
theorem C6_get_total_witness :
    Bencoded.get (Bencoded.Dict [([110], Bencoded.Integer 42)]) [110]
      = some (Bencoded.Integer 42) ∧
    Bencoded.get (Bencoded.Integer 5) [110] = none ∧
    Bencoded.get (Bencoded.Dict []) [109] = none := by
  refine ⟨?_, ?_, ?_⟩
  · rcases (C6_get_total (Bencoded.Dict [([110], Bencoded.Integer 42)]) [110]).2.2.2
      [([110], Bencoded.Integer 42)] rfl (by decide) with ⟨w, hw, hmem⟩
    have hwv : w = Bencoded.Integer 42 := by
      have := List.mem_singleton.mp hmem
      exact congrArg Prod.snd this
    rw [hwv] at hw
    exact hw
  · exact (C6_get_total (Bencoded.Integer 5) [110]).2.1 (fun m h => by cases h)
  · exact (C6_get_total (Bencoded.Dict []) [109]).2.2.1 [] rfl (by decide)

/-- C7: for a dictionary body in which a key occurs more than once, decoding
does not fail; the resulting map sends that key to the value of its last
occurrence in the input (a later duplicate silently overwrites an earlier
one).  `lookupKey ps.reverse k` is precisely the value of the last
occurrence of `k` in the pair sequence `ps`. -/
theorem C7_duplicate_last_wins (ps : List (Bytes × Bencoded)) (k : Bytes)
    (hvals : specCanonicalPairs ps = true)
    (hdup : 1 < ((ps.map Prod.fst).count k)) :
    ∃ m : List (Bytes × Bencoded),
      parse (100 :: (specEncodePairs ps ++ [101])) = some (.Dict m) ∧
      ∀ v, lookupKey ps.reverse k = some v → lookupKey m k = some v := by
  refine ⟨ps.foldl (fun m p => insertPair m p.1 p.2) [], parse_dict_top ps hvals, ?_⟩
  intro v hv
  exact lookup_foldl_insert ps [] k v hv

/-- C7 witness: `d1:ai1e1:ai2ee` decodes, and `a` maps to `Integer 2`, the
last occurrence. -/
theorem C7_duplicate_last_wins_witness :
    ∃ m : List (Bytes × Bencoded),
      parse [100, 49, 58, 97, 105, 49, 101, 49, 58, 97, 105, 50, 101, 101]
        = some (Bencoded.Dict m) ∧
      lookupKey m [97] = some (Bencoded.Integer 2) := by
  rcases C7_duplicate_last_wins
      [([97], Bencoded.Integer 1), ([97], Bencoded.Integer 2)] [97] (by decide) (by decide)
    with ⟨m, hm, hl⟩
  have he : (100 :: (specEncodePairs [([97], Bencoded.Integer 1), ([97], Bencoded.Integer 2)]
      ++ [101])) = [100, 49, 58, 97, 105, 49, 101, 49, 58, 97, 105, 50, 101, 101] := rfl
  refine ⟨m, by rw [← he]; exact hm, ?_⟩
  exact hl (Bencoded.Integer 2) rfl

/-- C8: a byte-string length prefix that exceeds the bytes remaining after
the colon makes decoding fail deterministically (the guarded-indexing error
branch), rather than reading out of bounds or returning a partial
bytestring. -/
theorem C8_length_overflow_fails (n : Nat) (body : Bytes) (h1 : 0 < n)
    (h2 : body.length < n) :
    parse_bytestring (natToDigits n ++ 58 :: body) 0 = none := by
  have hl := parse_len_loop_digitSeq (natToDigits n) (natToDigits_mem n) 0 [] body
  simp only [List.nil_append, List.length_nil] at hl
  rw [lenVal_natToDigits] at hl
  rw [parse_bytestring]
  split
  · rfl
  · rename_i len j heq
    rw [hl] at heq
    cases heq
    rw [if_neg]
    push_neg
    constructor
    · omega
    · simp only [List.length_append, List.length_cons]
      omega

/-- C8 witness: `5:hi` promises 5 bytes but only 2 remain. -/
theorem C8_length_overflow_fails_witness :
    parse_bytestring [53, 58, 104, 105] 0 = none := by
  have h := C8_length_overflow_fails 5 [104, 105] (by decide) (by decide)
  have he : natToDigits 5 ++ 58 :: [104, 105] = [53, 58, 104, 105] := rfl
  rw [he] at h
  exact h

/-- C9 (amended): the decoder dispatches on the lookahead byte — `i` (105)
to the integer parser, `l` (108) to the list parser, `d` (100) to the
dictionary parser, an ASCII digit to the byte-string parser; a `:` (58)
lookahead is NOT a failure: it reaches the byte-string parser with an empty
digit sequence and yields `Bytestring("")`; every other lookahead byte is a
malformed-input failure. -/
theorem C9_dispatch (s : Bytes) (idx : Nat) (c : Nat) (h : s[idx]? = some c) :
    (c = 105 → parse_bencoded s idx = parse_integer s (idx + 1)) ∧
    (c = 108 → parse_bencoded s idx =
      match parse_list s (idx + 1) [] with
      | none => none
      | some (v, j) => some (.List v, j)) ∧
    (c = 100 → parse_bencoded s idx =
      match parse_dict s (idx + 1) [] with
      | none => none
      | some (m, j) => some (.Dict m, j)) ∧
    (48 ≤ c → c ≤ 57 → parse_bencoded s idx = parse_bytestring s idx) ∧
    (c = 58 → parse_bencoded s idx = some (.Bytestring [], idx + 1)) ∧
    (c ≠ 105 → c ≠ 108 → c ≠ 100 → ¬ (48 ≤ c ∧ c ≤ 57) → c ≠ 58 →
      parse_bencoded s idx = none) := by
  refine ⟨?_, ?_, ?_, ?_, ?_, ?_⟩
  · intro hc
    subst hc
    exact parse_bencoded_i h
  · intro hc
    subst hc
    exact parse_bencoded_l h
  · intro hc
    subst hc
    exact parse_bencoded_d h
  · intro hge hle
    exact parse_bencoded_other h (by omega) (by omega) (by omega)
  · intro hc
    subst hc
    rw [parse_bencoded_other h (by omega) (by omega) (by omega)]
    rw [parse_bytestring, parse_len_loop_colon h 0]
    simp
  · intro h105 h108 h100 hdig h58
    rw [parse_bencoded_other h h105 h108 h100]
    rw [parse_bytestring, parse_len_loop_bad h hdig h58 0]

/-- C9 witness: the unknown lookahead `x` (120) is a malformed-input
failure. -/
theorem C9_dispatch_witness : parse_bencoded [120] 0 = none :=
  (C9_dispatch [120] 0 120 (by decide)).2.2.2.2.2
    (by omega) (by omega) (by omega) (by omega) (by omega)

/-- C9 counterexample: the claim as stated says every lookahead other than
`i`, `l`, `d` or a digit fails, naming `:` as an example; but on input `":"`
(byte 58, which is none of those) the decoder succeeds, returning the empty
`Bytestring` with one byte consumed. -/
theorem C9_counterexample :
    parse_bencoded [58] 0 = some (Bencoded.Bytestring [], 1) ∧
    (58 ≠ 105 ∧ 58 ≠ 108 ∧ 58 ≠ 100 ∧ ¬ (48 ≤ 58 ∧ 58 ≤ 57)) := by
  constructor
  · rw [parse_bencoded_other (show ([58] : Bytes)[0]? = some 58 by decide)
      (by decide) (by decide) (by decide)]
    rw [parse_bytestring, parse_len_loop_colon (show ([58] : Bytes)[0]? = some 58 by decide) 0]
    simp
  · decide

/-- C10: decoding `"i-e"` (a bare minus with no digits) does not fail: the
digit loop runs zero times, leaving the accumulator `0`, and the sign is
applied to it, so the result is `Integer(0)`. -/
theorem C10_bare_minus : parse [105, 45, 101] = some (Bencoded.Integer 0) := by
  have hb : parse_bencoded [105, 45, 101] 0 = some (.Integer 0, 3) := by
    rw [parse_bencoded_i (show ([105, 45, 101] : Bytes)[0]? = some 105 by decide)]
    rw [parse_integer_neg (show ([105, 45, 101] : Bytes)[0 + 1]? = some 45 by decide)]
    rw [parse_integer_loop_e (show ([105, 45, 101] : Bytes)[0 + 1 + 1]? = some 101 by decide) 0]
    norm_num
  simp [parse, hb]

/-! ## Stability under buffer extension

Appending bytes after a buffer cannot change the result of a successful
parse: the decoder reads only positions below the cursor it returns.  This
is the general form of the "bytes beyond the first complete value are
ignored" contract. -/

/-- The failing loop arm of `parse_list` when the element parse does not
advance the cursor (unreachable on success, part of the guarded model). -/
theorem parse_list_step_noadv {s : Bytes} {idx : Nat} {c : Nat} {elem : Bencoded}
    {idx2 : Nat} (h : s[idx]? = some c) (hc : c ≠ 101)
    (hp : parse_bencoded s idx = some (elem, idx2)) (hnadv : ¬ idx < idx2)
    (v : List Bencoded) : parse_list s idx v = none := by
  conv_lhs => unfold parse_list
  split
  · rfl
  · rename_i c2 hc2
    rw [h] at hc2
    cases hc2
    rw [if_neg hc, hp]
    simp [dif_neg hnadv]

/-- The failing loop arm of `parse_dict` when the key parse fails. -/
theorem parse_dict_fail_key {s : Bytes} {idx : Nat} {c : Nat}
    (h : s[idx]? = some c) (hc : c ≠ 101) (hk : parse_bytestring s idx = none)
    (map : List (Bytes × Bencoded)) : parse_dict s idx map = none := by
  conv_lhs => unfold parse_dict
  split
  · rfl
  · rename_i c2 hc2
    rw [h] at hc2
    cases hc2
    rw [if_neg hc, hk]

/-- The failing loop arm of `parse_dict` when the key parse does not advance
the cursor (unreachable on success). -/
theorem parse_dict_noadv1 {s : Bytes} {idx : Nat} {c : Nat} {key : Bytes} {i2 : Nat}
    (h : s[idx]? = some c) (hc : c ≠ 101)
    (hk : parse_bytestring s idx = some (.Bytestring key, i2)) (hnadv : ¬ idx < i2)
    (map : List (Bytes × Bencoded)) : parse_dict s idx map = none := by
  conv_lhs => unfold parse_dict
  split
  · rfl
  · rename_i c2 hc2
    rw [h] at hc2
    cases hc2
    rw [if_neg hc, hk]
    simp [dif_neg hnadv]

/-- The failing loop arm of `parse_dict` when the value parse fails. -/
theorem parse_dict_fail_val {s : Bytes} {idx : Nat} {c : Nat} {key : Bytes} {i2 : Nat}
    (h : s[idx]? = some c) (hc : c ≠ 101)
    (hk : parse_bytestring s idx = some (.Bytestring key, i2)) (hadv : idx < i2)
    (hv : parse_bencoded s i2 = none)
    (map : List (Bytes × Bencoded)) : parse_dict s idx map = none := by
  conv_lhs => unfold parse_dict
  split
  · rfl
  · rename_i c2 hc2
    rw [h] at hc2
    cases hc2
    rw [if_neg hc, hk]
    simp [dif_pos hadv, hv]

/-- The failing loop arm of `parse_dict` when the value parse does not
advance the cursor (unreachable on success). -/
theorem parse_dict_noadv2 {s : Bytes} {idx : Nat} {c : Nat} {key : Bytes} {i2 : Nat}
    {val : Bencoded} {i3 : Nat}
    (h : s[idx]? = some c) (hc : c ≠ 101)
    (hk : parse_bytestring s idx = some (.Bytestring key, i2)) (hadv : idx < i2)
    (hv : parse_bencoded s i2 = some (val, i3)) (hnadv : ¬ idx < i3)
    (map : List (Bytes × Bencoded)) : parse_dict s idx map = none := by
  conv_lhs => unfold parse_dict
  split
  · rfl
  · rename_i c2 hc2
    rw [h] at hc2
    cases hc2
    rw [if_neg hc, hk]
    simp [dif_pos hadv, hv, dif_neg hnadv]

/-- A successful `parse_bytestring` always returns a `Bytestring`. -/
theorem parse_bytestring_shape {s : Bytes} {idx : Nat} {r : Bencoded × Nat}
    (h : parse_bytestring s idx = some r) : ∃ b j, r = (Bencoded.Bytestring b, j) := by
  rw [parse_bytestring] at h
  split at h
  · cases h
  · rename_i len j heq
    split at h
    · cases h
      exact ⟨_, _, rfl⟩
    · cases h

/-- Bounded extension stability of the integer digit loop. -/
theorem parse_integer_loop_extAux (s ext : Bytes) :
    ∀ (k idx : Nat) (n : Int) (r : Int × Nat), s.length - idx ≤ k →
      parse_integer_loop s idx n = some r →
      parse_integer_loop (s ++ ext) idx n = some r := by
  intro k
  induction k with
  | zero =>
    intro idx n r hk hp
    rw [parse_integer_loop_oob (List.getElem?_eq_none (by omega)) n] at hp
    cases hp
  | succ k2 ih =>
    intro idx n r hk hp
    cases h : s[idx]? with
    | none =>
      rw [parse_integer_loop_oob h n] at hp
      cases hp
    | some c =>
      have hlt : idx < s.length := (List.getElem?_eq_some.mp h).1
      have hext : (s ++ ext)[idx]? = some c := by
        rw [List.getElem?_append_left hlt]
        exact h
      by_cases hc : c = 101
      · subst hc
        rw [parse_integer_loop_e h n] at hp
        rw [parse_integer_loop_e hext n]
        exact hp
      · by_cases hd : 48 ≤ c ∧ c ≤ 57
        · rw [parse_integer_loop_digit h hd n] at hp
          rw [parse_integer_loop_digit hext hd n]
          exact ih (idx + 1) _ r (by omega) hp
        · rw [parse_integer_loop_bad h hd hc n] at hp
          cases hp

/-- Extension stability of the integer digit loop. -/
theorem parse_integer_loop_ext {s : Bytes} {idx : Nat} {n : Int} {r : Int × Nat}
    (ext : Bytes) (hp : parse_integer_loop s idx n = some r) :
    parse_integer_loop (s ++ ext) idx n = some r :=
  parse_integer_loop_extAux s ext s.length idx n r (by omega) hp

/-- Bounded extension stability of the length digit loop. -/
theorem parse_len_loop_extAux (s ext : Bytes) :
    ∀ (k idx : Nat) (n : Nat) (r : Nat × Nat), s.length - idx ≤ k →
      parse_len_loop s idx n = some r →
      parse_len_loop (s ++ ext) idx n = some r := by
  intro k
  induction k with
  | zero =>
    intro idx n r hk hp
    rw [parse_len_loop_oob (List.getElem?_eq_none (by omega)) n] at hp
    cases hp
  | succ k2 ih =>
    intro idx n r hk hp
    cases h : s[idx]? with
    | none =>
      rw [parse_len_loop_oob h n] at hp
      cases hp
    | some c =>
      have hlt : idx < s.length := (List.getElem?_eq_some.mp h).1
      have hext : (s ++ ext)[idx]? = some c := by
        rw [List.getElem?_append_left hlt]
        exact h
      by_cases hc : c = 58
      · subst hc
        rw [parse_len_loop_colon h n] at hp
        rw [parse_len_loop_colon hext n]
        exact hp
      · by_cases hd : 48 ≤ c ∧ c ≤ 57
        · rw [parse_len_loop_digit h hd n] at hp
          rw [parse_len_loop_digit hext hd n]
          exact ih (idx + 1) _ r (by omega) hp
        · rw [parse_len_loop_bad h hd hc n] at hp
          cases hp

/-- Extension stability of the length digit loop. -/
theorem parse_len_loop_ext {s : Bytes} {idx : Nat} {n : Nat} {r : Nat × Nat}
    (ext : Bytes) (hp : parse_len_loop s idx n = some r) :
    parse_len_loop (s ++ ext) idx n = some r :=
  parse_len_loop_extAux s ext s.length idx n r (by omega) hp

/-- Extension stability of `parse_integer`. -/
theorem parse_integer_ext {s : Bytes} {idx : Nat} {r : Bencoded × Nat} (ext : Bytes)
    (hp : parse_integer s idx = some r) : parse_integer (s ++ ext) idx = some r := by
  cases h : s[idx]? with
  | none =>
    rw [parse_integer_oob h] at hp
    cases hp
  | some c =>
    have hlt : idx < s.length := (List.getElem?_eq_some.mp h).1
    have hext : (s ++ ext)[idx]? = some c := by
      rw [List.getElem?_append_left hlt]
      exact h
    by_cases hc : c = 45
    · subst hc
      rw [parse_integer_neg h] at hp
      rw [parse_integer_neg hext]
      cases hl : parse_integer_loop s (idx + 1) 0 with
      | none =>
        rw [hl] at hp
        cases hp
      | some p =>
        rw [hl] at hp
        rw [parse_integer_loop_ext ext hl]
        exact hp
    · rw [parse_integer_nosign h hc] at hp
      rw [parse_integer_nosign hext hc]
      cases hl : parse_integer_loop s idx 0 with
      | none =>
        rw [hl] at hp
        cases hp
      | some p =>
        rw [hl] at hp
        rw [parse_integer_loop_ext ext hl]
        exact hp

/-- The dispatch equation of `parse_bytestring` on a successful length
loop. -/
theorem parse_bytestring_some {s : Bytes} {idx len j : Nat}
    (h : parse_len_loop s idx 0 = some (len, j)) :
    parse_bytestring s idx = if len = 0 ∨ j + len ≤ s.length
      then some (.Bytestring ((s.drop j).take len), j + len) else none := by
  conv_lhs => unfold parse_bytestring
  split
  · rename_i hc
    rw [h] at hc
    cases hc
  · rename_i len2 j2 hc
    rw [h] at hc
    cases hc
    rfl

/-- Extension stability of `parse_bytestring`: a successful parse reads only
bytes below its returned cursor, so trailing bytes change nothing. -/
theorem parse_bytestring_ext {s : Bytes} {idx : Nat} {r : Bencoded × Nat} (ext : Bytes)
    (hp : parse_bytestring s idx = some r) : parse_bytestring (s ++ ext) idx = some r := by
  rw [parse_bytestring] at hp
  split at hp
  · cases hp
  · rename_i len j heq
    split at hp
    · rename_i hcond
      cases hp
      rw [parse_bytestring_some (parse_len_loop_ext ext heq)]
      have hcond2 : len = 0 ∨ j + len ≤ (s ++ ext).length := by
        rcases hcond with h0 | hle
        · exact Or.inl h0
        · right
          simp only [List.length_append]
          omega
      rw [if_pos hcond2]
      rcases hcond with h0 | hle
      · subst h0
        simp
      · have hdrop : (s ++ ext).drop j = s.drop j ++ ext :=
          List.drop_append_of_le_length (by omega)
        have htake : (s.drop j ++ ext).take len = (s.drop j).take len :=
          List.take_append_of_le_length (by simp [List.length_drop]; omega)
        rw [hdrop, htake]
    · cases hp

/-- The strong-induction package for extension stability of the three
mutually recursive parsers. -/
theorem parse_ext_main (s ext : Bytes) : ∀ k : Nat,
    (∀ (idx : Nat) (r : Bencoded × Nat), 2 * (s.length - idx) ≤ k →
      parse_bencoded s idx = some r → parse_bencoded (s ++ ext) idx = some r) ∧
    (∀ (idx : Nat) (acc : List Bencoded) (r : List Bencoded × Nat),
      2 * (s.length - idx) + 1 ≤ k →
      parse_list s idx acc = some r → parse_list (s ++ ext) idx acc = some r) ∧
    (∀ (idx : Nat) (acc : List (Bytes × Bencoded)) (r : List (Bytes × Bencoded) × Nat),
      2 * (s.length - idx) + 1 ≤ k →
      parse_dict s idx acc = some r → parse_dict (s ++ ext) idx acc = some r) := by
  intro k
  induction k using Nat.strong_induction_on with
  | _ k ih =>
    refine ⟨?_, ?_, ?_⟩
    · intro idx r hk hs
      cases h : s[idx]? with
      | none =>
        rw [parse_bencoded_oob h] at hs
        cases hs
      | some c =>
        have hlt : idx < s.length := (List.getElem?_eq_some.mp h).1
        have hext : (s ++ ext)[idx]? = some c := by
          rw [List.getElem?_append_left hlt]
          exact h
        by_cases h105 : c = 105
        · subst h105
          rw [parse_bencoded_i h] at hs
          rw [parse_bencoded_i hext]
          exact parse_integer_ext ext hs
        by_cases h108 : c = 108
        · subst h108
          rw [parse_bencoded_l h] at hs
          rw [parse_bencoded_l hext]
          cases hl : parse_list s (idx + 1) [] with
          | none =>
            rw [hl] at hs
            simp at hs
          | some p =>
            rw [hl] at hs
            rw [(ih (k - 1) (by omega)).2.1 (idx + 1) [] p (by omega) hl]
            exact hs
        by_cases h100 : c = 100
        · subst h100
          rw [parse_bencoded_d h] at hs
          rw [parse_bencoded_d hext]
          cases hl : parse_dict s (idx + 1) [] with
          | none =>
            rw [hl] at hs
            simp at hs
          | some p =>
            rw [hl] at hs
            rw [(ih (k - 1) (by omega)).2.2 (idx + 1) [] p (by omega) hl]
            exact hs
        · rw [parse_bencoded_other h h105 h108 h100] at hs
          rw [parse_bencoded_other hext h105 h108 h100]
          exact parse_bytestring_ext ext hs
    · intro idx acc r hk hs
      cases h : s[idx]? with
      | none =>
        rw [parse_list_oob h acc] at hs
        cases hs
      | some c =>
        have hlt : idx < s.length := (List.getElem?_eq_some.mp h).1
        have hext : (s ++ ext)[idx]? = some c := by
          rw [List.getElem?_append_left hlt]
          exact h
        by_cases hc : c = 101
        · subst hc
          rw [parse_list_e h acc] at hs
          rw [parse_list_e hext acc]
          exact hs
        · cases hp : parse_bencoded s idx with
          | none =>
            rw [parse_list_step_fail h hc hp acc] at hs
            cases hs
          | some p =>
            obtain ⟨elem, idx2⟩ := p
            by_cases hadv : idx < idx2
            · rw [parse_list_step h hc hp hadv acc] at hs
              have hpe := (ih (k - 1) (by omega)).1 idx (elem, idx2) (by omega) hp
              rw [parse_list_step hext hc hpe hadv acc]
              exact (ih (k - 1) (by omega)).2.1 idx2 (acc ++ [elem]) r (by omega) hs
            · rw [parse_list_step_noadv h hc hp hadv acc] at hs
              cases hs
    · intro idx acc r hk hs
      cases h : s[idx]? with
      | none =>
        rw [parse_dict_oob h acc] at hs
        cases hs
      | some c =>
        have hlt : idx < s.length := (List.getElem?_eq_some.mp h).1
        have hext : (s ++ ext)[idx]? = some c := by
          rw [List.getElem?_append_left hlt]
          exact h
        by_cases hc : c = 101
        · subst hc
          rw [parse_dict_e h acc] at hs
          rw [parse_dict_e hext acc]
          exact hs
        · cases hkb : parse_bytestring s idx with
          | none =>
            rw [parse_dict_fail_key h hc hkb acc] at hs
            cases hs
          | some p =>
            rcases parse_bytestring_shape hkb with ⟨b, i2, rfl⟩
            by_cases ha1 : idx < i2
            · cases hv : parse_bencoded s i2 with
              | none =>
                rw [parse_dict_fail_val h hc hkb ha1 hv acc] at hs
                cases hs
              | some q =>
                obtain ⟨val, i3⟩ := q
                by_cases ha2 : idx < i3
                · rw [parse_dict_step h hc hkb ha1 hv ha2 acc] at hs
                  have hkbe := parse_bytestring_ext ext hkb
                  have hve := (ih (k - 1) (by omega)).1 i2 (val, i3) (by omega) hv
                  rw [parse_dict_step hext hc hkbe ha1 hve ha2 acc]
                  exact (ih (k - 1) (by omega)).2.2 i3 (insertPair acc b val) r (by omega) hs
                · rw [parse_dict_noadv2 h hc hkb ha1 hv ha2 acc] at hs
                  cases hs
            · rw [parse_dict_noadv1 h hc hkb ha1 acc] at hs
              cases hs

/-- Extension stability of `parse_bencoded`: a successful parse is
unaffected by any bytes appended after the buffer. -/
theorem parse_bencoded_ext {s : Bytes} {idx : Nat} {r : Bencoded × Nat} (ext : Bytes)
    (hp : parse_bencoded s idx = some r) : parse_bencoded (s ++ ext) idx = some r :=
  (parse_ext_main s ext (2 * s.length + 1)).1 idx r (by omega) hp

/-- C5: for every byte buffer whose prefix is one complete well-formed
bencode value — i.e. `parse_bencoded` succeeds on the prefix from offset 0 —
`parse` of the whole buffer parses from offset 0, returns that single
top-level value, and is unaffected by (in particular does not fail on) the
bytes beyond the first complete value, whatever they are. -/
theorem C5_prefix_decode (s : Bytes) (v : Bencoded) (j : Nat)
    (h : parse_bencoded s 0 = some (v, j)) (rest : Bytes) :
    parse s = some v ∧ parse (s ++ rest) = some v := by
  constructor
  · simp [parse, h]
  · have h2 := parse_bencoded_ext rest h
    simp [parse, h2]

/-- C5 witness: trailing junk after the complete value `i42e` is ignored. -/
theorem C5_prefix_decode_witness :
    parse_bencoded [105, 52, 50, 101] 0 = some (Bencoded.Integer 42, 4) ∧
    parse [105, 52, 50, 101] = some (Bencoded.Integer 42) ∧
    parse [105, 52, 50, 101, 120, 121] = some (Bencoded.Integer 42) := by
  have hb : parse_bencoded [105, 52, 50, 101] 0 = some (Bencoded.Integer 42, 4) := by
    have h := parse_specEncode (Bencoded.Integer 42) rfl [] []
    simp only [List.nil_append, List.append_nil, List.length_nil] at h
    have he : specEncode (Bencoded.Integer 42) = [105, 52, 50, 101] := rfl
    rw [he] at h
    simpa using h
  have h5 := C5_prefix_decode [105, 52, 50, 101] (Bencoded.Integer 42) 4 hb [120, 121]
  exact ⟨hb, h5.1, by simpa using h5.2⟩
